import Mathlib

set_option maxHeartbeats 1000000

/-
Verification development for the market-structure detection core in
src/algo_code/algo.py (class Algo).  Candles and pivots are embedded as
records over Int prices; pandas DataFrames become Lists whose positional
index is recorded in the `pdi` field (the well-formedness predicate `dfWf`
states that the recorded pdi of every candle equals its list position,
which is how the code uses pair_df throughout).  Fallible pandas lookups
are modelled with Option/Except; an uncaught Python exception is modelled
by an `none`/error result that aborts the computation while keeping the
mutations already performed, which is exactly what an exception does to
the Algo object's fields.
-/

inductive PivotType
  | peak
  | valley
deriving DecidableEq, Repr

inductive CandleColor
  | green
  | red
deriving DecidableEq, Repr

structure Candle where
  pdi : Nat
  time : Int
  high : Int
  low : Int
  close : Int
  candle_color : CandleColor
deriving DecidableEq, Repr

structure Pivot where
  pdi : Nat
  pivot_value : Int
  pivot_type : PivotType
deriving DecidableEq, Repr

/-- Well-formedness of the candle series: the `pdi` recorded in each candle is its
zero-based position in the list, exactly the relationship between the `pdi` values and
the positional RangeIndex of `pair_df`. -/
def dfWf (df : List Candle) : Prop :=
  df.map Candle.pdi = List.range df.length

instance decDfWf (df : List Candle) : Decidable (dfWf df) :=
  inferInstanceAs (Decidable (df.map Candle.pdi = List.range df.length))

/-- Modelled from the spec: `Pivot.create` lives in algo_code/datatypes.py which is not
among the sources; per the spec, a pivot's value is the candle's high if it is a peak and
its low if it is a valley, and the pivot inherits the candle's pdi. -/
def Pivot.create (c : Candle) (t : PivotType) : Pivot :=
  ⟨c.pdi, if t = PivotType.peak then c.high else c.low, t⟩

/-- The type flip performed by `'valley' if last_pivot_type == 'peak' else 'peak'`. -/
def PivotType.flip : PivotType → PivotType
  | .peak => .valley
  | .valley => .peak

/-- State carried through the forward scan of `Algo.init_zigzag`: the committed pivots,
the current open extreme candle and its type. -/
structure ZigzagState where
  pivots : List Pivot
  lastPivotCandle : Candle
  lastPivotType : PivotType
deriving Repr

/-- `peak_extension_condition` (algo.py line 77). -/
def peakExtensionCondition (st : ZigzagState) (row : Candle) : Bool :=
  decide (st.lastPivotCandle.high < row.high) && (st.lastPivotType == PivotType.peak)

/-- `valley_extension_condition` (line 78). -/
def valleyExtensionCondition (st : ZigzagState) (row : Candle) : Bool :=
  decide (row.low < st.lastPivotCandle.low) && (st.lastPivotType == PivotType.valley)

/-- `reversal_from_peak_condition` (line 80). -/
def reversalFromPeakCondition (st : ZigzagState) (row : Candle) : Bool :=
  decide (row.low < st.lastPivotCandle.low) && (st.lastPivotType == PivotType.peak)

/-- `reversal_from_valley_condition` (line 81). -/
def reversalFromValleyCondition (st : ZigzagState) (row : Candle) : Bool :=
  decide (st.lastPivotCandle.high < row.high) && (st.lastPivotType == PivotType.valley)

/-- The guard at line 84: the candle registers both a new extreme and a break of the
open extreme's opposite bound (an extension and a reversal condition simultaneously). -/
def zigzagBothConditions (st : ZigzagState) (row : Candle) : Bool :=
  (reversalFromValleyCondition st row && valleyExtensionCondition st row) ||
    (peakExtensionCondition st row && reversalFromPeakCondition st row)

/-- The color test at line 100: candle green while the open extreme is a valley, or
red while it is a peak. -/
def zigzagColorRule (st : ZigzagState) (row : Candle) : Bool :=
  (row.candle_color == CandleColor.green && st.lastPivotType == PivotType.valley) ||
    (row.candle_color == CandleColor.red && st.lastPivotType == PivotType.peak)

/-- One iteration of the `for row in self.pair_df.iloc[...]` loop of `Algo.init_zigzag`
(algo.py lines 74-124).  The four condition booleans are computed once at the top of the
body; note that the second `if` (line 113) is not an `elif` of the both-conditions block
(line 84), and it re-tests the booleans computed against the state from the top of the
body, so after the both-conditions block it always takes the extension arm. -/
def zigzagStep (st : ZigzagState) (row : Candle) : ZigzagState :=
  let st1 :=
    if zigzagBothConditions st row then
      -- Judging based on candle color (lines 100-110).
      if zigzagColorRule st row then
        { pivots := st.pivots ++ [Pivot.create st.lastPivotCandle st.lastPivotType],
          lastPivotCandle := row,
          lastPivotType := st.lastPivotType.flip }
      else
        { st with lastPivotCandle := row }
    else st
  if peakExtensionCondition st row || valleyExtensionCondition st row then
    { st1 with lastPivotCandle := row }
  else if reversalFromValleyCondition st row || reversalFromPeakCondition st row then
    { pivots := st1.pivots ++ [Pivot.create st1.lastPivotCandle st1.lastPivotType],
      lastPivotCandle := row,
      lastPivotType := st1.lastPivotType.flip }
  else st1

/-- The forward scan of `Algo.init_zigzag` starting from a given seed pivot candle and
type, over the candles after the seed; returns the committed pivots only (the open
extreme left at the end of the input is never emitted). -/
def initZigzagFrom (seedCandle : Candle) (seedType : PivotType) (rows : List Candle) :
    List Pivot :=
  (rows.foldl zigzagStep ⟨[], seedCandle, seedType⟩).pivots

/-- The seed search of `Algo.init_zigzag` (lines 58-64): the first candle with a higher
high or a lower low than its previous candle, classified peak if the high condition
holds, else valley.  The first candle of the series can never be selected (its shifted
comparisons are NaN, hence false). -/
def findFirstSeed : Candle → List Candle → Option (Candle × PivotType)
  | _, [] => none
  | prev, c :: rest =>
    if prev.high < c.high then some (c, PivotType.peak)
    else if c.low < prev.low then some (c, PivotType.valley)
    else findFirstSeed c rest

/-- `Algo.init_zigzag` with no seed given: find the seed, then scan the candles after it
(`self.pair_df.iloc[last_pivot_candle.pdi + 1:]`).  `none` models the IndexError raised
by `.iloc[0]` when no candle ever makes a higher high or lower low. -/
def initZigzag (pairDf : List Candle) : Option (List Pivot) :=
  match pairDf with
  | [] => none
  | c0 :: rest =>
    match findFirstSeed c0 rest with
    | none => none
    | some (seed, seedType) =>
      some (initZigzagFrom seed seedType (pairDf.drop (seed.pdi + 1)))

/-- The two ways a relative-pivot lookup can fail in `Algo.find_relative_pivot`
(algo.py lines 132-147): `indexError` models the IndexError raised by
`zigzag_df.iloc[zigzag_idx + delta]` when the signed position is outside
`[-len, len)`; `typeError` models the TypeError raised by `None + delta` when
`pivot_pdi` is absent from the zigzag (then `first_valid_index()` returns None).
Only IndexError is caught by the callers that treat a miss as "no further
structure". -/
inductive FindErr
  | indexError
  | typeError
deriving DecidableEq, Repr

/-- `Algo.find_relative_pivot`: locate the first zigzag row whose pdi equals
`pivotPdi`, then return the pdi of the row `delta` positions away via `.iloc`.
Pandas `.iloc` accepts negative positions down to `-len` by counting from the end,
exactly like Python list indexing, so a signed position in `[-len, 0)` silently
resolves to a pivot near the end of the zigzag. -/
def findRelativePivot (zig : List Pivot) (pivotPdi : Nat) (delta : Int) :
    Except FindErr Nat :=
  match zig.findIdx? (fun p => p.pdi == pivotPdi) with
  | none => .error .typeError
  | some k =>
    let idx : Int := (k : Int) + delta
    if h : 0 ≤ idx ∧ idx < (zig.length : Int) then
      .ok (zig.get ⟨idx.toNat, by omega⟩).pdi
    else if h2 : -(zig.length : Int) ≤ idx ∧ idx < 0 then
      .ok (zig.get ⟨(idx + (zig.length : Int)).toNat, by omega⟩).pdi
    else .error .indexError

/-- First pivot value found at a given pdi, modelling
`zigzag_df[zigzag_df.pdi == x].iloc[0].pivot_value` (`none` = IndexError on an
empty selection). -/
def pivotValueAt (zig : List Pivot) (pdi : Nat) : Option Int :=
  (zig.find? (fun p => p.pdi == pdi)).map Pivot.pivot_value

/-- The five sentiments returned by `Algo.__detect_breaking_sentiment`; `noBreak`
is the `"NONE"` output. -/
inductive Sentiment
  | pbosShadow
  | pbosClose
  | chochShadow
  | chochClose
  | noBreak
deriving DecidableEq, Repr

/-- One output dict of `Algo.__detect_breaking_sentiment`. -/
structure SentOutput where
  sentiment : Sentiment
  pdi : Option Nat
deriving DecidableEq, Repr

def isCloseSent : Sentiment → Bool
  | .pbosClose => true
  | .chochClose => true
  | _ => false

/-- First component of the Python `sorting_key`: the pdi, with `None` mapped to 0. -/
def sentKeyPdi (o : SentOutput) : Nat :=
  match o.pdi with
  | none => 0
  | some n => n

/-- Second component of the Python `sorting_key`: 1 for CLOSE sentiments, 2 otherwise. -/
def sentKeyClose (o : SentOutput) : Nat :=
  if isCloseSent o.sentiment then 1 else 2

/-- Strict lexicographic comparison of the `(pdi, has_close)` sorting keys. -/
def sentKeyLt (a b : SentOutput) : Bool :=
  decide (sentKeyPdi a < sentKeyPdi b) ||
    (sentKeyPdi a == sentKeyPdi b && decide (sentKeyClose a < sentKeyClose b))

/-- Stable insertion used to model Python's stable `sorted`: `x` is placed before the
first element whose key is strictly greater, i.e. after every element with key ≤ its
own, which preserves the original order of equal keys. -/
def insertByKey (x : SentOutput) : List SentOutput → List SentOutput
  | [] => [x]
  | y :: ys => if sentKeyLt x y then x :: y :: ys else y :: insertByKey x ys

/-- Python's stable `sorted(outputs_list, key=sorting_key)`. -/
def stableSortByKey (l : List SentOutput) : List SentOutput :=
  l.foldl (fun acc x => insertByKey x acc) []

/-- First candle of the search window breaking the PBOS by shadow
(`search_window.high > latest_pbos_value` ascending, `low <` descending), as the pandas
`first_valid_index()`, i.e. the pdi label of the first matching row. -/
def pbosShadowFirst (window : List Candle) (pbosValue : Int) (asc : Bool) : Option Nat :=
  (window.find? (fun c => if asc then decide (pbosValue < c.high)
                          else decide (c.low < pbosValue))).map Candle.pdi

/-- First candle breaking the PBOS by close. -/
def pbosCloseFirst (window : List Candle) (pbosValue : Int) (asc : Bool) : Option Nat :=
  (window.find? (fun c => if asc then decide (pbosValue < c.close)
                          else decide (c.close < pbosValue))).map Candle.pdi

/-- First candle breaking the CHOCH by shadow. -/
def chochShadowFirst (window : List Candle) (chochValue : Int) (asc : Bool) : Option Nat :=
  (window.find? (fun c => if asc then decide (c.low < chochValue)
                          else decide (chochValue < c.high))).map Candle.pdi

/-- First candle breaking the CHOCH by close. -/
def chochCloseFirst (window : List Candle) (chochValue : Int) (asc : Bool) : Option Nat :=
  (window.find? (fun c => if asc then decide (c.close < chochValue)
                          else decide (chochValue < c.close))).map Candle.pdi

/-- The selection tail of `Algo.__detect_breaking_sentiment` (lines 279-314): build the
four output dicts in source order, stable-sort them by `(pdi, has_close)`, drop the ones
with a None pdi, and return the head, or the NONE output when nothing survives. -/
def selectSentiment (a b c d : Option Nat) : SentOutput :=
  let outputsList : List SentOutput :=
    [⟨.pbosShadow, a⟩, ⟨.pbosClose, b⟩, ⟨.chochShadow, c⟩, ⟨.chochClose, d⟩]
  let sortedOutputs := (stableSortByKey outputsList).filter (fun o => o.pdi.isSome)
  match sortedOutputs.head? with
  | some o => o
  | none => ⟨.noBreak, none⟩

/-- The candle window of `Algo.__detect_breaking_sentiment`:
`self.pair_df.iloc[latest_pbos_pdi + 1:-1]` — candles strictly after the latest PBOS,
with the final (possibly still-forming) candle dropped. -/
def sentimentWindow (pairDf : List Candle) (pbosPdi : Nat) : List Candle :=
  (pairDf.drop (pbosPdi + 1)).dropLast

/-- `Algo.__detect_breaking_sentiment` (algo.py lines 238-314). -/
def detectBreakingSentiment (pairDf : List Candle) (pbosValue : Int) (pbosPdi : Nat)
    (chochValue : Int) (asc : Bool) : SentOutput :=
  let window := sentimentWindow pairDf pbosPdi
  selectSentiment
    (pbosShadowFirst window pbosValue asc)
    (pbosCloseFirst window pbosValue asc)
    (chochShadowFirst window chochValue asc)
    (chochCloseFirst window chochValue asc)

/-- The extension condition of the `detect_first_broken_lpl` scan (algo.py lines
184, 187): ascending — a peak with value ≥ the extension value; descending — a
valley with value ≤ it. -/
def lplExtensionCond (asc : Bool) (extensionValue : Int) (row : Pivot) : Bool :=
  if asc then row.pivot_type == PivotType.peak && decide (extensionValue ≤ row.pivot_value)
  else row.pivot_type == PivotType.valley && decide (row.pivot_value ≤ extensionValue)

/-- The breaking condition of the `detect_first_broken_lpl` scan (lines 185, 188):
ascending — a valley with value ≤ the breaking value; descending — a peak with
value ≥ it. -/
def lplBreakingCond (asc : Bool) (breakingValue : Int) (row : Pivot) : Bool :=
  if asc then row.pivot_type == PivotType.valley && decide (row.pivot_value ≤ breakingValue)
  else row.pivot_type == PivotType.peak && decide (breakingValue ≤ row.pivot_value)

/-- Result of a successful `detect_first_broken_lpl`: the zigzag row holding the
broken LPL, and the pdi of the candle that broke it. -/
structure LplResult where
  brokenLpl : Pivot
  breakingCandlePdi : Nat
deriving DecidableEq, Repr

/-- Locate the breaking candle once the breaking condition fired at pivot `row`
(algo.py lines 191-216).  The candle search window is
`self.pair_df.loc[pivot_before_breaking_pivot + 1 : row.pdi + 1]`; pandas `.loc`
slices are inclusive of both end labels, so the window holds the candles with pdi in
`[prevPdi + 1, rowPdi + 1]`.  The first candle whose low drops below (ascending) /
high rises above (descending) the breaking value is returned; if none does, the
breaking pivot's own pdi is the fallback. -/
def lplBreakingCandlePdi (asc : Bool) (pairDf : List Candle) (breakingValue : Int)
    (prevPdi rowPdi : Nat) : Nat :=
  let window := pairDf.filter (fun c => decide (prevPdi + 1 ≤ c.pdi) &&
    decide (c.pdi ≤ rowPdi + 1))
  let hits := if asc then window.filter (fun c => decide (c.low < breakingValue))
    else window.filter (fun c => decide (breakingValue < c.high))
  match hits.head? with
  | some c => c.pdi
  | none => rowPdi

/-- The `for row in ...` scan of `detect_first_broken_lpl` (lines 182-236), with the
running `(breaking_pdi, breaking_value, extension_value)` state passed explicitly.
Returns `none` on an uncaught exception inside the body (unreachable on a
well-formed zigzag), otherwise `(loop result, list of pdis appended to the LPL
registry, in order)`.  The breaking and extension conditions are mutually exclusive
(they require opposite pivot types), and a breaking iteration returns before the
registry append at lines 230-234, so appends happen exactly on extension
iterations and record the freshly updated breaking pdi. -/
def lplLoop (asc : Bool) (pairDf : List Candle) (zig : List Pivot) :
    Nat → Int → Int → List Pivot → Option (Option LplResult × List Nat)
  | _, _, _, [] => some (none, [])
  | breakingPdi, breakingValue, extensionValue, row :: rest =>
    if lplBreakingCond asc breakingValue row then
      match findRelativePivot zig row.pdi (-1) with
      | .error _ => none
      | .ok prevPdi =>
        match zig.find? (fun p => p.pdi == breakingPdi) with
        | none => none
        | some brokenLpl =>
          some (some ⟨brokenLpl, lplBreakingCandlePdi asc pairDf breakingValue prevPdi row.pdi⟩, [])
    else if lplExtensionCond asc extensionValue row then
      match findRelativePivot zig row.pdi (-1) with
      | .error _ => none
      | .ok prevPdi =>
        match zig.find? (fun p => p.pdi == prevPdi) with
        | none => none
        | some prevPivot =>
          match lplLoop asc pairDf zig prevPivot.pdi prevPivot.pivot_value row.pivot_value rest with
          | none => none
          | some (res, appends) => some (res, prevPivot.pdi :: appends)
    else lplLoop asc pairDf zig breakingPdi breakingValue extensionValue rest

/-- Full output of `detect_first_broken_lpl`: the scan result (`none` = the Python
function returned None) plus the pdis appended to `self.lpl_indices["valley"]` and
`self.lpl_indices["peak"]` during the call. -/
structure LplOutput where
  result : Option LplResult
  appendsValley : List Nat
  appendsPeak : List Nat
deriving DecidableEq, Repr

/-- `Algo.detect_first_broken_lpl` (algo.py lines 149-236).  The trend is ascending
iff the starting pivot is a valley; the initial breaking pdi/value are the starting
pivot's own, the extension value is the next pivot's value, and the scan runs over
the zigzag rows with pdi ≥ the pivot two positions ahead, excluding the last row
(`.iloc[:-1]`).  An IndexError from either setup lookup is caught and yields the
"no break" result (`result = none`); the outer `none` models an uncaught exception
(starting pdi absent from the zigzag raises IndexError at `.iloc[0]`, before the
`try` block, and `find_relative_pivot` on an absent pdi raises TypeError, which the
`except IndexError` does not catch). -/
def detectFirstBrokenLpl (pairDf : List Candle) (zig : List Pivot) (startPdi : Nat) :
    Option LplOutput :=
  match zig.find? (fun p => p.pdi == startPdi) with
  | none => none
  | some startingPivot =>
    let asc := startingPivot.pivot_type == PivotType.valley
    match findRelativePivot zig startPdi 1 with
    | .error .indexError => some ⟨none, [], []⟩
    | .error .typeError => none
    | .ok extensionPdi =>
      match pivotValueAt zig extensionPdi with
      | none => none
      | some extensionValue =>
        match findRelativePivot zig startPdi 2 with
        | .error .indexError => some ⟨none, [], []⟩
        | .error .typeError => none
        | .ok checkStartPdi =>
          let rows := (zig.filter (fun p => decide (checkStartPdi ≤ p.pdi))).dropLast
          match lplLoop asc pairDf zig startPdi startingPivot.pivot_value extensionValue rows with
          | none => none
          | some (res, appends) =>
            if asc then some ⟨res, appends, []⟩ else some ⟨res, [], appends⟩

/-- `formation_method` of a Segment. -/
inductive FormationMethod
  | bos
  | choch
deriving DecidableEq, Repr

/-- The Segment record (algo_code/segment.py is not among the sources; every field
set in algo.py is listed explicitly at both construction sites, and per the spec the
`formation_method` not passed at the PBOS_CLOSE site defaults to bos).  `type` is
`true` for "ascending". -/
structure Segment where
  start_pdi : Nat
  end_pdi : Nat
  ob_leg_start_pdi : Nat
  ob_leg_end_pdi : Nat
  top_price : Option Int
  bottom_price : Int
  ob_formation_start_pdi : Nat
  broken_lpl_pdi : Nat
  type : Bool
  formation_method : FormationMethod
deriving DecidableEq, Repr

/-- `idxmax` over the pivot values of a filtered zigzag frame followed by `.loc`:
the first pivot attaining the maximum value (pandas idxmax returns the first
occurrence of the maximum); `none` models the exception raised on an empty frame. -/
def firstArgmaxVal : List Pivot → Option Pivot
  | [] => none
  | p :: ps =>
    match firstArgmaxVal ps with
    | none => some p
    | some q => if p.pivot_value < q.pivot_value then some q else some p

/-- `idxmin` counterpart of `firstArgmaxVal`. -/
def firstArgminVal : List Pivot → Option Pivot
  | [] => none
  | p :: ps =>
    match firstArgminVal ps with
    | none => some p
    | some q => if q.pivot_value < p.pivot_value then some q else some p

/-- The mutable `Algo` fields read and written by `calc_h_o_zigzag`, plus the local
loop variables that persist across iterations (`pattern_start_pdi`,
`latest_pbos_pdi`, `latest_pbos_threshold`, `latest_choch_threshold`). -/
structure HOState where
  hoIndices : List Nat
  pbosIndices : List Nat
  segments : List Segment
  lplValley : List Nat
  lplPeak : List Nat
  patternStartPdi : Nat
  latestPbosPdi : Option Nat
  latestPbosThreshold : Option Int
  latestChochThreshold : Int
deriving DecidableEq, Repr

/-- The PBOS_CLOSE arm of the dispatch (algo.py lines 433-483), entered with the
state as of line 433.  Mutation order follows the source: push the extremum pivot
onto `h_o_indices`, reset `pattern_start_pdi`, clear `latest_pbos_pdi`, append the
Segment, then move `latest_choch_threshold` to the value at the new last
higher-order index.  A `(st, false)` exit in the middle models the uncaught pandas
exception at that point (`idxmin` / `iloc[-1]` / `h_o_indices[-3]` on too little
data), which aborts the loop while keeping the mutations already made. -/
def hoPbosClose (zig : List Pivot) (st : HOState) (asc : Bool) (breakingPdi : Nat)
    (lplBreakingPdi : Nat) (brokenLplPdi : Nat) : HOState × Bool :=
  let extremumPointPivotType := if asc then PivotType.valley else PivotType.peak
  match st.hoIndices.getLast? with
  | none => (st, false)
  | some hoLast =>
    let extremumPointPivotsOfType := zig.filter (fun p =>
      decide (hoLast ≤ p.pdi) && decide (p.pdi ≤ breakingPdi) &&
        (p.pivot_type == extremumPointPivotType))
    match (if extremumPointPivotType == PivotType.peak then
        firstArgmaxVal extremumPointPivotsOfType
      else firstArgminVal extremumPointPivotsOfType) with
    | none => (st, false)
    | some extremumPivot =>
      let st := { st with hoIndices := st.hoIndices ++ [extremumPivot.pdi] }
      let pivotType := if asc then PivotType.valley else PivotType.peak
      let pivotsOfTypeBeforeClosingCandle := zig.filter (fun p =>
        (p.pivot_type == pivotType) && decide (p.pdi ≤ breakingPdi))
      match pivotsOfTypeBeforeClosingCandle.getLast? with
      | none => (st, false)
      | some patternStartPivot =>
        let st := { st with patternStartPdi := patternStartPivot.pdi,
                            latestPbosPdi := none }
        if 3 ≤ st.hoIndices.length then
          let seg : Segment :=
            { start_pdi := st.hoIndices.getD (st.hoIndices.length - 3) 0,
              end_pdi := breakingPdi - 1,
              ob_leg_start_pdi := st.hoIndices.getD (st.hoIndices.length - 3) 0,
              ob_leg_end_pdi := st.hoIndices.getD (st.hoIndices.length - 2) 0,
              top_price := st.latestPbosThreshold,
              bottom_price := st.latestChochThreshold,
              ob_formation_start_pdi := lplBreakingPdi + 1,
              broken_lpl_pdi := brokenLplPdi,
              type := asc,
              formation_method := FormationMethod.bos }
          let st := { st with segments := st.segments ++ [seg] }
          match st.hoIndices.getLast? with
          | none => (st, false)
          | some latestChochPdi =>
            match pivotValueAt zig latestChochPdi with
            | none => (st, false)
            | some v => ({ st with latestChochThreshold := v }, true)
        else (st, false)

/-- The CHOCH_CLOSE arm of the dispatch (algo.py lines 487-517), entered with the
state as of line 487.  The trend flips, `pattern_start_pdi` moves to the last pivot
of the new trend's starting type before the closing candle, the Segment (typed with
the pre-flip trend and formation method choch) is appended, the CHOCH threshold is
refreshed, and `latest_pbos_pdi` is cleared. -/
def hoChochClose (zig : List Pivot) (st : HOState) (asc : Bool) (breakingPdi : Nat)
    (lplBreakingPdi : Nat) (brokenLplPdi : Nat) : HOState × Bool :=
  let asc2 := !asc
  let pivotType := if asc2 then PivotType.valley else PivotType.peak
  let pivotsOfTypeBeforeClosingCandle := zig.filter (fun p =>
    (p.pivot_type == pivotType) && decide (p.pdi ≤ breakingPdi))
  match pivotsOfTypeBeforeClosingCandle.getLast? with
  | none => (st, false)
  | some patternStartPivot =>
    let st := { st with patternStartPdi := patternStartPivot.pdi }
    if 2 ≤ st.hoIndices.length then
      let seg : Segment :=
        { start_pdi := st.hoIndices.getD (st.hoIndices.length - 2) 0,
          end_pdi := breakingPdi,
          ob_leg_start_pdi := st.hoIndices.getD (st.hoIndices.length - 2) 0,
          ob_leg_end_pdi := st.hoIndices.getD (st.hoIndices.length - 2) 0,
          top_price := st.latestPbosThreshold,
          bottom_price := st.latestChochThreshold,
          ob_formation_start_pdi := lplBreakingPdi + 1,
          broken_lpl_pdi := brokenLplPdi,
          type := !asc2,
          formation_method := FormationMethod.choch }
      let st := { st with segments := st.segments ++ [seg] }
      match st.hoIndices.getLast? with
      | none => (st, false)
      | some latestChochPdi =>
        match pivotValueAt zig latestChochPdi with
        | none => (st, false)
        | some v => ({ st with latestChochThreshold := v, latestPbosPdi := none }, true)
    else (st, false)

/-- The sentiment dispatch of the `calc_h_o_zigzag` loop body (algo.py lines
400-517), entered with the state as of line 400: read the tracked PBOS threshold
and pdi (the `_, _` arm models the unreachable unset case aborting the loop), run
`__detect_breaking_sentiment`, and dispatch on the resulting sentiment: shadow
breaks move the PBOS (ascending reads the breaking candle's high, descending its
low) or the CHOCH threshold (low/high respectively) and repeat; close breaks
form a Segment via the corresponding arm; anything else (`NONE`) breaks the
loop. -/
def hoSentimentStep (pairDf : List Candle) (zig : List Pivot) (st : HOState)
    (asc : Bool) (lplBreakingPdi brokenLplPdi : Nat) : HOState × Bool :=
  match st.latestPbosThreshold, st.latestPbosPdi with
  | some pbosThr, some pbosPdiVal =>
    let breakingOutput :=
      detectBreakingSentiment pairDf pbosThr pbosPdiVal st.latestChochThreshold asc
    match breakingOutput.sentiment, breakingOutput.pdi with
    | Sentiment.pbosShadow, some breakingPdi =>
      match pairDf.get? breakingPdi with
      | none => (st, false)
      | some c =>
        ({ st with latestPbosPdi := some breakingPdi,
                   latestPbosThreshold := some (if asc then c.high else c.low) },
         true)
    | Sentiment.chochShadow, some breakingPdi =>
      match pairDf.get? breakingPdi with
      | none => (st, false)
      | some c =>
        ({ st with latestChochThreshold := if asc then c.low else c.high }, true)
    | Sentiment.pbosClose, some breakingPdi =>
      hoPbosClose zig st asc breakingPdi lplBreakingPdi brokenLplPdi
    | Sentiment.chochClose, some breakingPdi =>
      hoChochClose zig st asc breakingPdi lplBreakingPdi brokenLplPdi
    | _, _ => (st, false)
  | _, _ => (st, false)

/-- One iteration of the `while True` loop of `Algo.calc_h_o_zigzag` (algo.py lines
374-521).  The Bool result is `true` when the loop repeats; `false` models both the
`break` statements and an uncaught exception aborting the loop (in either case the
mutations already performed on the Algo object persist, which is what the returned
state captures). -/
def hoIter (pairDf : List Candle) (zig : List Pivot) (st : HOState) : HOState × Bool :=
  match detectFirstBrokenLpl pairDf zig st.patternStartPdi with
  | none => (st, false)
  | some out =>
    let st := { st with lplValley := st.lplValley ++ out.appendsValley,
                        lplPeak := st.lplPeak ++ out.appendsPeak }
    match out.result with
    | none => (st, false)
    | some res =>
      let brokenLpl := res.brokenLpl
      let lplBreakingPdi := res.breakingCandlePdi
      let asc := brokenLpl.pivot_type == PivotType.valley
      match findRelativePivot zig brokenLpl.pdi 1 with
      | .error _ => (st, false)
      | .ok bosPdi =>
        let freshStep : Option HOState :=
          match st.latestPbosPdi with
          | none =>
            match pivotValueAt zig bosPdi with
            | none => none
            | some v =>
              some { st with latestPbosPdi := some bosPdi,
                             latestPbosThreshold := some v,
                             hoIndices := st.hoIndices ++ [bosPdi] }
          | some _ => some st
        match freshStep with
        | none => (st, false)
        | some st =>
          let st := { st with pbosIndices := st.pbosIndices ++ [bosPdi] }
          hoSentimentStep pairDf zig st asc lplBreakingPdi brokenLpl.pdi

/-- The `while True` loop with explicit fuel; fuel exhaustion simply stops iterating
(every theorem below holds for every amount of fuel). -/
def hoLoop (pairDf : List Candle) (zig : List Pivot) : Nat → HOState → HOState
  | 0, st => st
  | fuel + 1, st =>
    match hoIter pairDf zig st with
    | (st', true) => hoLoop pairDf zig fuel st'
    | (st', false) => st'

/-- The initialization of `Algo.calc_h_o_zigzag` (lines 360-371): push the starting
pdi onto `h_o_indices`, seed the CHOCH threshold with that pivot's value, and start
the pattern there with no PBOS tracked.  `none` models the exception when the
starting pdi is absent from the zigzag. -/
def initHOState (zig : List Pivot) (startingPdi : Nat) : Option HOState :=
  match pivotValueAt zig startingPdi with
  | none => none
  | some v =>
    some { hoIndices := [startingPdi], pbosIndices := [], segments := [],
           lplValley := [], lplPeak := [], patternStartPdi := startingPdi,
           latestPbosPdi := none, latestPbosThreshold := none,
           latestChochThreshold := v }

/-- `Algo.calc_h_o_zigzag` run on a fresh Algo instance. -/
def calcHOZigzag (pairDf : List Candle) (zig : List Pivot) (startingPdi : Nat)
    (fuel : Nat) : Option HOState :=
  (initHOState zig startingPdi).map (hoLoop pairDf zig fuel)

/-- `Algo.convert_pdis_to_times` on a single pdi: `self.pair_df.iloc[pdi].time`
(`none` models the IndexError when the pdi is out of range). -/
def timeAtPdi (pairDf : List Candle) (pdi : Nat) : Option Int :=
  (pairDf.get? pdi).map Candle.time

/-- Modelled from the spec: the outcome of one `position.cancel_position()` call of
the Position collaborator (algo_code/position.py is not among the sources).  Per
the spec and the handler in `determine_main_loop_start_type`, a call either
succeeds, fails with the "already entered" condition (the RuntimeError branch), or
fails some other way (the generic Exception branch). -/
inductive CancelOutcome
  | success
  | alreadyEntered
  | otherFail
deriving DecidableEq, Repr

/-- A tracked position, reduced to the behaviour `determine_main_loop_start_type`
can observe: the outcome of its k-th `cancel_position()` call. -/
structure PosModel where
  outcomes : Nat → CancelOutcome

/-- The `while attempts < 3` retry loop of `determine_main_loop_start_type`
(algo.py lines 680-697), with `fuel = 3 - attempts`; returns how many
`cancel_position()` calls were made.  A success or a RuntimeError ("already
entered") breaks out immediately; any other exception increments `attempts`. -/
def cancelLoopAux (outcomes : Nat → CancelOutcome) : Nat → Nat → Nat
  | 0, calls => calls
  | fuel + 1, calls =>
    match outcomes calls with
    | CancelOutcome.otherFail => cancelLoopAux outcomes fuel (calls + 1)
    | _ => calls + 1

/-- Number of `cancel_position()` calls made for one position. -/
def cancelCalls (p : PosModel) : Nat :=
  cancelLoopAux p.outcomes 3 0

/-- The per-pair entry of `positions_info_dict` touched by
`determine_main_loop_start_type`. -/
structure PairInfo where
  latestSegmentStartTime : Option Int
  positions : List PosModel
  hasBeenSearched : Bool
  lastLogMessage : String

/-- The two literals returned by `determine_main_loop_start_type`. -/
inductive StartType
  | noNewSegment
  | resetPositions
deriving DecidableEq, Repr

/-- Observable result of `determine_main_loop_start_type`: the returned literal,
the updated per-pair entry, and how many `cancel_position()` calls each tracked
position received (in list order). -/
structure MainLoopResult where
  signal : StartType
  info : PairInfo
  cancelCallCounts : List Nat

/-- `Algo.determine_main_loop_start_type` (algo.py lines 650-711).  `none` models
the uncaught exception when `self.segments` is empty (`self.segments[-1]`) or the
latest segment's start pdi has no candle.  Note the short-circuit: when starting
fresh the time comparison is skipped, and the cancellation loop runs only in the
`elif` branch, i.e. never when starting fresh. -/
def determineMainLoopStartType (pairDf : List Candle) (segments : List Segment)
    (info : PairInfo) : Option MainLoopResult :=
  match segments.getLast? with
  | none => none
  | some lastSeg =>
    match timeAtPdi pairDf lastSeg.start_pdi with
    | none => none
    | some newTime =>
      let isStartingFresh := info.latestSegmentStartTime.isNone
      let isNewSegmentFound := isStartingFresh ||
        (match info.latestSegmentStartTime with
         | none => false
         | some t => decide (t < newTime))
      if !isNewSegmentFound && !isStartingFresh then
        some ⟨StartType.noNewSegment, info, []⟩
      else
        let counts := if isStartingFresh then [] else info.positions.map cancelCalls
        some ⟨StartType.resetPositions,
          { latestSegmentStartTime := some newTime, positions := [],
            hasBeenSearched := false, lastLogMessage := "CANCELED_POSITIONS" },
          counts⟩

/-- Python list slice `xs[a:b]` (also `.iloc[a:b]` and integer `df[a:b]`, which are
positional with an exclusive end) for non-negative bounds. -/
def pySlice (xs : List Candle) (a b : Nat) : List Candle :=
  (xs.take b).drop a

/-- `Algo.form_potential_ob` reduced to its window construction (algo.py lines
752-784).  The OrderBlock collaborator (algo_code/order_block.py, not among the
sources) is modelled from the spec by the two values the windows depend on: its
`start_index` and the `price_exit_index` found by `register_exit_candle` (`none`
means no valid exit candle, in which case the order block is invalid and the
function returns None).  In validation mode the reentry window is
`pair_df.iloc[price_exit_index + 1 : position_activation_threshold]` and the
condition window is `pair_df[start_index : position_activation_threshold]`; with
validation off both run to the end of the data. -/
def formPotentialObWindows (validationMode : Bool) (pairDf : List Candle)
    (startIndex : Nat) (priceExitIndex : Option Nat)
    (positionActivationThreshold : Nat) : Option (List Candle × List Candle) :=
  match priceExitIndex with
  | none => none
  | some exitIdx =>
    let reentryCheckWindow :=
      if validationMode then pySlice pairDf (exitIdx + 1) positionActivationThreshold
      else pairDf.drop (exitIdx + 1)
    let conditionsCheckWindow :=
      if validationMode then pySlice pairDf startIndex positionActivationThreshold
      else pairDf.drop startIndex
    some (reentryCheckWindow, conditionsCheckWindow)

/-- Invariant of the `init_zigzag` scan state: the committed pivots strictly
increase in pdi and strictly alternate in type, and the open extreme sits strictly
after the last committed pivot with the opposite type. -/
def ZInv (st : ZigzagState) : Prop :=
  List.Chain' (fun a b : Pivot => a.pdi < b.pdi) st.pivots ∧
  List.Chain' (fun a b : Pivot => a.pivot_type ≠ b.pivot_type) st.pivots ∧
  ∀ p ∈ st.pivots.getLast?, p.pdi < st.lastPivotCandle.pdi ∧ p.pivot_type ≠ st.lastPivotType

/-- A nine-candle ascending series used as concrete input below: the valley LPL at
pdi 0 extends once (peak 22 at pdi 4 over the previous extension value 20) and is
then broken by the valley at pdi 6. -/
def pairDfW4 : List Candle :=
  [⟨0, 0, 11, 10, 10, CandleColor.red⟩, ⟨1, 1, 13, 11, 12, CandleColor.green⟩,
   ⟨2, 2, 20, 14, 19, CandleColor.green⟩, ⟨3, 3, 16, 12, 13, CandleColor.red⟩,
   ⟨4, 4, 22, 15, 21, CandleColor.green⟩, ⟨5, 5, 17, 11, 12, CandleColor.red⟩,
   ⟨6, 6, 14, 9, 10, CandleColor.red⟩, ⟨7, 7, 24, 13, 23, CandleColor.green⟩,
   ⟨8, 8, 30, 16, 29, CandleColor.green⟩]

/-- The zigzag matching `pairDfW4`. -/
def zigW4 : List Pivot :=
  [⟨0, 10, PivotType.valley⟩, ⟨2, 20, PivotType.peak⟩, ⟨3, 12, PivotType.valley⟩,
   ⟨4, 22, PivotType.peak⟩, ⟨6, 9, PivotType.valley⟩, ⟨8, 30, PivotType.peak⟩]

/-- The Python sorting key `(pdi, has_close)` collapsed into one Nat for
reasoning: the lexicographic order on `(sentKeyPdi, sentKeyClose)` coincides with
the order of `pdi * 4 + closeRank` because the close rank is always 1 or 2. -/
def sentKeyNum (o : SentOutput) : Nat :=
  sentKeyPdi o * 4 + sentKeyClose o

/-- The first in-window candle index satisfying each of the four breaking
conditions of `__detect_breaking_sentiment`, by sentiment (the NONE sentiment has
no condition). -/
def sentFirstOf (pairDf : List Candle) (pbosValue : Int) (pbosPdi : Nat)
    (chochValue : Int) (asc : Bool) : Sentiment → Option Nat
  | .pbosShadow => pbosShadowFirst (sentimentWindow pairDf pbosPdi) pbosValue asc
  | .pbosClose => pbosCloseFirst (sentimentWindow pairDf pbosPdi) pbosValue asc
  | .chochShadow => chochShadowFirst (sentimentWindow pairDf pbosPdi) chochValue asc
  | .chochClose => chochCloseFirst (sentimentWindow pairDf pbosPdi) chochValue asc
  | .noBreak => none

def dfC2 : List Candle :=
  [⟨0, 0, 50, 20, 30, CandleColor.green⟩, ⟨1, 1, 50, 20, 30, CandleColor.green⟩,
   ⟨2, 2, 60, 25, 40, CandleColor.green⟩, ⟨3, 3, 150, 5, 5, CandleColor.red⟩,
   ⟨4, 4, 50, 20, 30, CandleColor.green⟩]

/-- Two candles whose times are 100 and 200, for the lifecycle-gate input below. -/
def dfC8 : List Candle :=
  [⟨0, 100, 10, 5, 7, CandleColor.green⟩, ⟨1, 200, 11, 6, 8, CandleColor.green⟩]

/-- A segment starting at pdi 1 (start time 200). -/
def segW8 : Segment := ⟨1, 1, 1, 1, none, 0, 1, 0, true, FormationMethod.bos⟩

/-- A position whose first cancellation attempt hits the "already entered"
condition. -/
def posW8 : PosModel :=
  ⟨fun k => if k = 0 then CancelOutcome.alreadyEntered else CancelOutcome.success⟩

/-- The ordering property claimed for the Segments emitted by `calc_h_o_zigzag`:
their `start_pdi` values are non-decreasing in emission order. -/
def SegMono (segs : List Segment) : Prop :=
  List.Chain' (fun a b : Segment => a.start_pdi ≤ b.start_pdi) segs

/-- The `h_o_indices` entry that the next appended Segment will read as its
`start_pdi`.  With no PBOS tracked it is the last entry: the fresh-PBOS step of
the next iteration pushes the BOS pdi first, so by the time either
Segment-forming arm reads `h_o_indices[-3]` (after its own extremum push) or
`h_o_indices[-2]`, that entry sits exactly at the read position.  With a PBOS
already tracked it is the second-to-last entry, for the same positional
reason without the extra push. -/
def hoAnchor (st : HOState) : Nat :=
  match st.latestPbosPdi with
  | none => st.hoIndices.getLastD 0
  | some _ => st.hoIndices.getD (st.hoIndices.length - 2) 0

/-- Loop invariant of `calc_h_o_zigzag` relative to the zigzag `zig`:
`h_o_indices` is nonempty and non-decreasing, the emitted Segments have
non-decreasing `start_pdi`, the last Segment's start does not exceed the anchor
entry (so the next emitted Segment cannot go below it), with no PBOS tracked the
last higher-order index is at or before the pattern start, and with a PBOS
tracked at pdi `q` the last higher-order index is a pivot at or before `q`, the
index list has length at least 2, and that pivot's type is opposite to the
pattern-start pivot's type (it is the BOS following the previously broken
LPL). -/
def HOInv (zig : List Pivot) (st : HOState) : Prop :=
  st.hoIndices ≠ [] ∧
  List.Chain' (fun a b : Nat => a ≤ b) st.hoIndices ∧
  SegMono st.segments ∧
  (∀ lastSeg ∈ st.segments.getLast?, lastSeg.start_pdi ≤ hoAnchor st) ∧
  (st.latestPbosPdi = none → st.hoIndices.getLastD 0 ≤ st.patternStartPdi) ∧
  (∀ q, st.latestPbosPdi = some q →
    st.hoIndices.getLastD 0 ≤ q ∧ 2 ≤ st.hoIndices.length ∧
    ∃ hp ∈ zig, hp.pdi = st.hoIndices.getLastD 0 ∧
      ∃ sp ∈ zig, sp.pdi = st.patternStartPdi ∧ hp.pivot_type ≠ sp.pivot_type)

/-! Theorems.  Each claim of the specification gets one theorem named
`claim_Cn...`; shared helper lemmas precede them. -/

theorem zigzagBoth_imp_ext {st : ZigzagState} {row : Candle}
    (h : zigzagBothConditions st row = true) :
    (peakExtensionCondition st row || valleyExtensionCondition st row) = true := by
  unfold zigzagBothConditions at h
  simp only [Bool.or_eq_true, Bool.and_eq_true] at h ⊢
  rcases h with ⟨h1, h2⟩ | ⟨h1, h2⟩
  · exact Or.inr h2
  · exact Or.inl h1

/-- Claim C1 (corrected): in `init_zigzag`, at a candle where an extension and a
reversal condition hold simultaneously, if the candle is green while the open
extreme is a valley or red while it is a peak, the open extreme is committed as a
finalized Pivot, the type flips and a new open extreme starts at the current candle;
otherwise (green on a peak, red on a valley) the candle is treated as an extension
only: the open extreme's candle is updated in place and no pivot is emitted.  (The
claim as stated has the two color cases swapped.) -/
theorem claim_C1_amended (st : ZigzagState) (row : Candle)
    (hboth : zigzagBothConditions st row = true) :
    (zigzagColorRule st row = true →
      (zigzagStep st row).pivots =
        st.pivots ++ [Pivot.create st.lastPivotCandle st.lastPivotType] ∧
      (zigzagStep st row).lastPivotType = st.lastPivotType.flip ∧
      (zigzagStep st row).lastPivotCandle = row) ∧
    (zigzagColorRule st row = false →
      (zigzagStep st row).pivots = st.pivots ∧
      (zigzagStep st row).lastPivotType = st.lastPivotType ∧
      (zigzagStep st row).lastPivotCandle = row) := by
  have hext := zigzagBoth_imp_ext hboth
  constructor
  · intro hcol
    simp [zigzagStep, hboth, hcol, hext]
  · intro hcol
    simp [zigzagStep, hboth, hcol, hext]

/-- Claim C1, counterexample to the claim as stated: a green candle arriving while
the open extreme is a valley, registering both a higher high and a lower low, does
emit a pivot (the whole zigzag of this three-candle series is that one pivot),
whereas the claim says this case is treated as an extension only with no pivot
emitted. -/
theorem claim_C1_counterexample :
    zigzagBothConditions
        ⟨[], ⟨1, 1, 9, 4, 6, CandleColor.red⟩, PivotType.valley⟩
        ⟨2, 2, 11, 3, 10, CandleColor.green⟩ = true ∧
    zigzagColorRule
        ⟨[], ⟨1, 1, 9, 4, 6, CandleColor.red⟩, PivotType.valley⟩
        ⟨2, 2, 11, 3, 10, CandleColor.green⟩ = true ∧
    initZigzag
        [⟨0, 0, 10, 5, 7, CandleColor.green⟩, ⟨1, 1, 9, 4, 6, CandleColor.red⟩,
         ⟨2, 2, 11, 3, 10, CandleColor.green⟩] =
      some [⟨1, 4, PivotType.valley⟩] := by
  decide

theorem claim_C1_witness :
    (zigzagStep ⟨[], ⟨1, 1, 9, 4, 6, CandleColor.red⟩, PivotType.valley⟩
        ⟨2, 2, 11, 3, 10, CandleColor.green⟩).pivots = [⟨1, 4, PivotType.valley⟩] ∧
    (zigzagStep ⟨[], ⟨1, 1, 9, 4, 6, CandleColor.red⟩, PivotType.valley⟩
        ⟨2, 2, 11, 3, 10, CandleColor.green⟩).lastPivotType = PivotType.peak ∧
    (zigzagStep ⟨[], ⟨1, 1, 9, 4, 6, CandleColor.red⟩, PivotType.peak⟩
        ⟨2, 2, 11, 3, 10, CandleColor.green⟩).pivots = [] := by
  refine ⟨?_, ?_, ?_⟩
  · exact ((claim_C1_amended ⟨[], ⟨1, 1, 9, 4, 6, CandleColor.red⟩, PivotType.valley⟩
      ⟨2, 2, 11, 3, 10, CandleColor.green⟩ (by decide)).1 (by decide)).1
  · exact ((claim_C1_amended ⟨[], ⟨1, 1, 9, 4, 6, CandleColor.red⟩, PivotType.valley⟩
      ⟨2, 2, 11, 3, 10, CandleColor.green⟩ (by decide)).1 (by decide)).2.1
  · exact ((claim_C1_amended ⟨[], ⟨1, 1, 9, 4, 6, CandleColor.red⟩, PivotType.peak⟩
      ⟨2, 2, 11, 3, 10, CandleColor.green⟩ (by decide)).2 (by decide)).1

theorem PivotType.flip_ne (t : PivotType) : t ≠ t.flip := by
  cases t <;> simp [PivotType.flip]

theorem chain'_concat_of_last {α : Type} {R : α → α → Prop} {l : List α} {x : α}
    (hl : List.Chain' R l) (hlast : ∀ p ∈ l.getLast?, R p x) :
    List.Chain' R (l ++ [x]) := by
  rw [List.chain'_append]
  refine ⟨hl, List.chain'_singleton x, ?_⟩
  intro a ha b hb
  simp only [List.head?_cons, Option.mem_def, Option.some.injEq] at hb
  subst hb
  exact hlast a ha

theorem ZInv.commit {st : ZigzagState} {row : Candle} (hst : ZInv st)
    (hrow : st.lastPivotCandle.pdi < row.pdi) :
    ZInv ⟨st.pivots ++ [Pivot.create st.lastPivotCandle st.lastPivotType], row,
      st.lastPivotType.flip⟩ := by
  obtain ⟨h1, h2, h3⟩ := hst
  refine ⟨?_, ?_, ?_⟩
  · exact chain'_concat_of_last h1 (fun p hp => (h3 p hp).1)
  · exact chain'_concat_of_last h2 (fun p hp => (h3 p hp).2)
  · intro p hp
    rw [List.getLast?_concat] at hp
    simp only [Option.mem_def, Option.some.injEq] at hp
    subst hp
    exact ⟨hrow, PivotType.flip_ne st.lastPivotType⟩

theorem ZInv.keepCandle {st : ZigzagState} {row : Candle} (hst : ZInv st)
    (hrow : st.lastPivotCandle.pdi < row.pdi) :
    ZInv ⟨st.pivots, row, st.lastPivotType⟩ := by
  obtain ⟨h1, h2, h3⟩ := hst
  exact ⟨h1, h2, fun p hp => ⟨(h3 p hp).1.trans hrow, (h3 p hp).2⟩⟩


theorem zigzagStep_eq_both_color {st : ZigzagState} {row : Candle}
    (hb : zigzagBothConditions st row = true) (hc : zigzagColorRule st row = true) :
    zigzagStep st row =
      ⟨st.pivots ++ [Pivot.create st.lastPivotCandle st.lastPivotType], row,
        st.lastPivotType.flip⟩ := by
  have hext := zigzagBoth_imp_ext hb
  simp [zigzagStep, hb, hc, hext]

theorem zigzagStep_eq_both_notcolor {st : ZigzagState} {row : Candle}
    (hb : zigzagBothConditions st row = true) (hc : zigzagColorRule st row = false) :
    zigzagStep st row = ⟨st.pivots, row, st.lastPivotType⟩ := by
  have hext := zigzagBoth_imp_ext hb
  simp [zigzagStep, hb, hc, hext]

theorem zigzagStep_eq_ext {st : ZigzagState} {row : Candle}
    (hb : zigzagBothConditions st row = false)
    (he : (peakExtensionCondition st row || valleyExtensionCondition st row) = true) :
    zigzagStep st row = ⟨st.pivots, row, st.lastPivotType⟩ := by
  simp [zigzagStep, hb, he]

theorem zigzagStep_eq_rev {st : ZigzagState} {row : Candle}
    (hb : zigzagBothConditions st row = false)
    (he : (peakExtensionCondition st row || valleyExtensionCondition st row) = false)
    (hr : (reversalFromValleyCondition st row || reversalFromPeakCondition st row) = true) :
    zigzagStep st row =
      ⟨st.pivots ++ [Pivot.create st.lastPivotCandle st.lastPivotType], row,
        st.lastPivotType.flip⟩ := by
  simp [zigzagStep, hb, he, hr]

theorem zigzagStep_eq_idle {st : ZigzagState} {row : Candle}
    (hb : zigzagBothConditions st row = false)
    (he : (peakExtensionCondition st row || valleyExtensionCondition st row) = false)
    (hr : (reversalFromValleyCondition st row || reversalFromPeakCondition st row) = false) :
    zigzagStep st row = st := by
  simp [zigzagStep, hb, he, hr]

theorem zigzagStep_ZInv {st : ZigzagState} {row : Candle} (hst : ZInv st)
    (hrow : st.lastPivotCandle.pdi < row.pdi) :
    ZInv (zigzagStep st row) ∧
    ((zigzagStep st row).lastPivotCandle = row ∨
      (zigzagStep st row).lastPivotCandle = st.lastPivotCandle) := by
  by_cases hb : zigzagBothConditions st row = true
  · by_cases hc : zigzagColorRule st row = true
    · rw [zigzagStep_eq_both_color hb hc]
      exact ⟨ZInv.commit hst hrow, Or.inl rfl⟩
    · rw [zigzagStep_eq_both_notcolor hb ((Bool.not_eq_true _) ▸ hc)]
      exact ⟨ZInv.keepCandle hst hrow, Or.inl rfl⟩
  · have hb' : zigzagBothConditions st row = false := (Bool.not_eq_true _) ▸ hb
    by_cases he : (peakExtensionCondition st row || valleyExtensionCondition st row) = true
    · rw [zigzagStep_eq_ext hb' he]
      exact ⟨ZInv.keepCandle hst hrow, Or.inl rfl⟩
    · have he' : (peakExtensionCondition st row || valleyExtensionCondition st row) = false :=
        (Bool.not_eq_true _) ▸ he
      by_cases hr : (reversalFromValleyCondition st row ||
          reversalFromPeakCondition st row) = true
      · rw [zigzagStep_eq_rev hb' he' hr]
        exact ⟨ZInv.commit hst hrow, Or.inl rfl⟩
      · rw [zigzagStep_eq_idle hb' he' ((Bool.not_eq_true _) ▸ hr)]
        exact ⟨hst, Or.inr rfl⟩

theorem initZigzagFold_ZInv : ∀ (rows : List Candle) (st : ZigzagState),
    ZInv st →
    List.Pairwise (· < ·) (st.lastPivotCandle.pdi :: rows.map Candle.pdi) →
    ZInv (rows.foldl zigzagStep st) := by
  intro rows
  induction rows with
  | nil => exact fun st h _ => h
  | cons row rest ih =>
    intro st hst hpw
    simp only [List.map_cons] at hpw
    have hrow : st.lastPivotCandle.pdi < row.pdi :=
      (List.pairwise_cons.1 hpw).1 row.pdi (List.mem_cons_self _ _)
    obtain ⟨hinv', hcand⟩ := zigzagStep_ZInv hst hrow
    rw [List.foldl_cons]
    apply ih _ hinv'
    have htail := (List.pairwise_cons.1 hpw).2
    rcases hcand with hc | hc
    · rw [List.pairwise_cons, hc]
      exact ⟨(List.pairwise_cons.1 htail).1, (List.pairwise_cons.1 htail).2⟩
    · rw [List.pairwise_cons, hc]
      refine ⟨fun y hy => (List.pairwise_cons.1 hpw).1 y (List.mem_cons_of_mem _ hy),
        (List.pairwise_cons.1 htail).2⟩

theorem pairwise_pdi_seed_drop (df : List Candle) (hwf : dfWf df) (k : Nat) :
    List.Pairwise (· < ·) (k :: (df.drop (k + 1)).map Candle.pdi) := by
  rw [List.pairwise_cons]
  have hmap : (df.drop (k + 1)).map Candle.pdi = (List.range df.length).drop (k + 1) := by
    rw [List.map_drop, hwf]
  constructor
  · intro y hy
    rw [hmap, List.mem_drop_iff_getElem] at hy
    obtain ⟨i, hi, rfl⟩ := hy
    rw [List.getElem_range]
    omega
  · rw [hmap]
    exact (List.pairwise_lt_range _).sublist (List.drop_sublist _ _)

/-- Claim C6 (confirmed): in the zigzag produced by `init_zigzag` on a well-formed
candle series, adjacent committed pivots strictly increase in pdi and strictly
alternate in type. -/
theorem claim_C6 (pairDf : List Candle) (zs : List Pivot) (hwf : dfWf pairDf)
    (hz : initZigzag pairDf = some zs) :
    List.Chain' (fun a b : Pivot => a.pdi < b.pdi) zs ∧
    List.Chain' (fun a b : Pivot => a.pivot_type ≠ b.pivot_type) zs := by
  cases pairDf with
  | nil => simp [initZigzag] at hz
  | cons c0 rest =>
    cases hseed : findFirstSeed c0 rest with
    | none => simp only [initZigzag, hseed] at hz; exact absurd hz (by simp)
    | some seedPair =>
      obtain ⟨seed, seedType⟩ := seedPair
      simp only [initZigzag, hseed, Option.some.injEq] at hz
      have hinv : ZInv (((c0 :: rest).drop (seed.pdi + 1)).foldl zigzagStep
          ⟨[], seed, seedType⟩) := by
        apply initZigzagFold_ZInv
        · exact ⟨List.chain'_nil, List.chain'_nil, by simp⟩
        · exact pairwise_pdi_seed_drop (c0 :: rest) hwf seed.pdi
      rw [← hz]
      exact ⟨hinv.1, hinv.2.1⟩

theorem claim_C6_witness :
    List.Chain' (fun a b : Pivot => a.pdi < b.pdi)
      [⟨1, 12, PivotType.peak⟩, ⟨3, 3, PivotType.valley⟩] ∧
    List.Chain' (fun a b : Pivot => a.pivot_type ≠ b.pivot_type)
      [⟨1, 12, PivotType.peak⟩, ⟨3, 3, PivotType.valley⟩] :=
  claim_C6
    [⟨0, 0, 10, 5, 7, CandleColor.green⟩, ⟨1, 1, 12, 6, 11, CandleColor.green⟩,
     ⟨2, 2, 11, 4, 5, CandleColor.red⟩, ⟨3, 3, 13, 3, 9, CandleColor.red⟩,
     ⟨4, 4, 14, 8, 13, CandleColor.green⟩]
    [⟨1, 12, PivotType.peak⟩, ⟨3, 3, PivotType.valley⟩]
    (by decide) (by decide)

/-- Claim C5, counterexample to the claim as stated: on the zigzag
`[valley@0, peak@2, valley@4]`, looking up the pivot one position before the first
pivot does not fail with the PivotOutOfRange condition — pandas `.iloc[-1]` wraps
around and the call silently returns pdi 4, the pdi of the last pivot. -/
theorem claim_C5_counterexample :
    findRelativePivot
        [⟨0, 5, PivotType.valley⟩, ⟨2, 9, PivotType.peak⟩, ⟨4, 3, PivotType.valley⟩]
        0 (-1) = Except.ok 4 := by
  rfl

/-- Claim C5 (corrected): `find_relative_pivot` returns the pdi of the pivot exactly
`delta` positions away whenever the signed zigzag position `k + delta` lies in
`[0, len)`; it fails with IndexError (the PivotOutOfRange condition) exactly when
`k + delta` lies outside `[-len, len)`; but for `k + delta` in `[-len, 0)` — a
negative offset landing before the first pivot — it silently returns the pdi of the
pivot at the wrapped-around position `len + k + delta`, i.e. some other pivot's pdi;
and when the given pdi is absent from the zigzag it fails with TypeError, a failure
distinct from the IndexError that callers treat as PivotOutOfRange. -/
theorem claim_C5_amended (zig : List Pivot) (pivotPdi : Nat) (delta : Int) :
    (zig.findIdx? (fun p => p.pdi == pivotPdi) = none →
      findRelativePivot zig pivotPdi delta = Except.error FindErr.typeError) ∧
    (∀ k, zig.findIdx? (fun p => p.pdi == pivotPdi) = some k →
      (∀ h : 0 ≤ (k : Int) + delta ∧ (k : Int) + delta < (zig.length : Int),
        findRelativePivot zig pivotPdi delta =
          Except.ok (zig.get ⟨((k : Int) + delta).toNat, by omega⟩).pdi) ∧
      (∀ h : -(zig.length : Int) ≤ (k : Int) + delta ∧ (k : Int) + delta < 0,
        findRelativePivot zig pivotPdi delta =
          Except.ok (zig.get ⟨((k : Int) + delta + (zig.length : Int)).toNat,
            by omega⟩).pdi) ∧
      (((k : Int) + delta < -(zig.length : Int) ∨ (zig.length : Int) ≤ (k : Int) + delta) →
        findRelativePivot zig pivotPdi delta = Except.error FindErr.indexError)) := by
  constructor
  · intro h
    simp only [findRelativePivot, h]
  · intro k hk
    refine ⟨?_, ?_, ?_⟩
    · intro h
      simp only [findRelativePivot, hk]
      rw [dif_pos h]
    · intro h
      simp only [findRelativePivot, hk]
      rw [dif_neg (by omega), dif_pos h]
    · intro h
      simp only [findRelativePivot, hk]
      rw [dif_neg (by omega), dif_neg (by omega)]

theorem claim_C5_witness :
    findRelativePivot
        [⟨0, 5, PivotType.valley⟩, ⟨2, 9, PivotType.peak⟩, ⟨4, 3, PivotType.valley⟩]
        2 1 = Except.ok 4 ∧
    findRelativePivot
        [⟨0, 5, PivotType.valley⟩, ⟨2, 9, PivotType.peak⟩, ⟨4, 3, PivotType.valley⟩]
        0 (-1) = Except.ok 4 ∧
    findRelativePivot
        [⟨0, 5, PivotType.valley⟩, ⟨2, 9, PivotType.peak⟩, ⟨4, 3, PivotType.valley⟩]
        2 5 = Except.error FindErr.indexError ∧
    findRelativePivot
        [⟨0, 5, PivotType.valley⟩, ⟨2, 9, PivotType.peak⟩, ⟨4, 3, PivotType.valley⟩]
        7 1 = Except.error FindErr.typeError := by
  refine ⟨?_, ?_, ?_, ?_⟩
  · exact (((claim_C5_amended
      [⟨0, 5, PivotType.valley⟩, ⟨2, 9, PivotType.peak⟩, ⟨4, 3, PivotType.valley⟩]
      2 1).2 1 rfl).1 ⟨by norm_num, by norm_num⟩).trans rfl
  · exact (((claim_C5_amended
      [⟨0, 5, PivotType.valley⟩, ⟨2, 9, PivotType.peak⟩, ⟨4, 3, PivotType.valley⟩]
      0 (-1)).2 0 rfl).2.1 ⟨by norm_num, by norm_num⟩).trans rfl
  · exact ((claim_C5_amended
      [⟨0, 5, PivotType.valley⟩, ⟨2, 9, PivotType.peak⟩, ⟨4, 3, PivotType.valley⟩]
      2 5).2 1 rfl).2.2 (by norm_num)
  · exact (claim_C5_amended
      [⟨0, 5, PivotType.valley⟩, ⟨2, 9, PivotType.peak⟩, ⟨4, 3, PivotType.valley⟩]
      7 1).1 rfl

/-- Claim C3 (code bug): the breaking-candle scan of `detect_first_broken_lpl` is
meant (per the claim and the code's own comment) to run from just after the pivot
preceding the breaking pivot through the breaking pivot's pdi inclusive, falling
back to the breaking pivot's pdi when no candle in that window crosses the breaking
value.  Because pandas `.loc[a:b]` slices are inclusive of the end label, the code's
window `.loc[pivot_before + 1 : row.pdi + 1]` additionally contains the candle one
past the breaking pivot.  On this input the breaking pivot is the valley at pdi 4
(its value exactly equals the breaking value 10, so no candle up to pdi 4 crosses
strictly below), yet the function returns breaking-candle pdi 5 — the candle one
past the breaking pivot — instead of falling back to 4. -/
theorem claim_C3 :
    detectFirstBrokenLpl
        [⟨0, 0, 11, 10, 10, CandleColor.red⟩, ⟨1, 1, 12, 11, 11, CandleColor.green⟩,
         ⟨2, 2, 20, 13, 19, CandleColor.green⟩, ⟨3, 3, 18, 12, 15, CandleColor.red⟩,
         ⟨4, 4, 15, 10, 11, CandleColor.red⟩, ⟨5, 5, 14, 9, 10, CandleColor.red⟩,
         ⟨6, 6, 25, 13, 24, CandleColor.green⟩]
        [⟨0, 10, PivotType.valley⟩, ⟨2, 20, PivotType.peak⟩,
         ⟨4, 10, PivotType.valley⟩, ⟨6, 25, PivotType.peak⟩]
        0 =
      some ⟨some ⟨⟨0, 10, PivotType.valley⟩, 5⟩, [], []⟩ ∧
    (∀ c ∈ [⟨0, 0, 11, 10, 10, CandleColor.red⟩, ⟨1, 1, 12, 11, 11, CandleColor.green⟩,
         ⟨2, 2, 20, 13, 19, CandleColor.green⟩, ⟨3, 3, 18, 12, 15, CandleColor.red⟩,
         ⟨4, 4, 15, 10, 11, CandleColor.red⟩, ⟨5, 5, 14, 9, 10, CandleColor.red⟩,
         ⟨6, 6, 25, 13, 24, CandleColor.green⟩].filter
          (fun c : Candle => decide (c.pdi ≤ 4)), ¬(c.low < 10)) := by
  constructor
  · rfl
  · decide

/-- Claim C4 (confirmed): during a `detect_first_broken_lpl` scan, an iteration
appends to the LPL registry exactly when the pivot satisfies the extension
condition: the breaking and extension conditions are mutually exclusive; a breaking
iteration returns with no append; an extension iteration appends exactly the
freshly updated breaking pdi in front of the appends of the remaining iterations; a
neutral iteration appends nothing; and the appends land in the valley list when the
trend is ascending (starting pivot a valley) and in the peak list when descending. -/
theorem claim_C4 (asc : Bool) (pairDf : List Candle) (zig : List Pivot)
    (breakingPdi : Nat) (breakingValue extensionValue : Int) (row : Pivot)
    (rest : List Pivot) :
    (lplBreakingCond asc breakingValue row = true →
      lplExtensionCond asc extensionValue row = false) ∧
    (lplBreakingCond asc breakingValue row = true →
      ∀ out, lplLoop asc pairDf zig breakingPdi breakingValue extensionValue
          (row :: rest) = some out → out.2 = []) ∧
    (lplBreakingCond asc breakingValue row = false →
      lplExtensionCond asc extensionValue row = true →
      ∀ prevPdi, findRelativePivot zig row.pdi (-1) = Except.ok prevPdi →
      ∀ prevPivot, zig.find? (fun p => p.pdi == prevPdi) = some prevPivot →
      ∀ res appends,
        lplLoop asc pairDf zig prevPivot.pdi prevPivot.pivot_value row.pivot_value
          rest = some (res, appends) →
        lplLoop asc pairDf zig breakingPdi breakingValue extensionValue
          (row :: rest) = some (res, prevPivot.pdi :: appends)) ∧
    (lplBreakingCond asc breakingValue row = false →
      lplExtensionCond asc extensionValue row = false →
      lplLoop asc pairDf zig breakingPdi breakingValue extensionValue (row :: rest) =
        lplLoop asc pairDf zig breakingPdi breakingValue extensionValue rest) ∧
    (∀ startPdi startingPivot,
      zig.find? (fun p => p.pdi == startPdi) = some startingPivot →
      ∀ out, detectFirstBrokenLpl pairDf zig startPdi = some out →
        (startingPivot.pivot_type = PivotType.valley → out.appendsPeak = []) ∧
        (startingPivot.pivot_type = PivotType.peak → out.appendsValley = [])) := by
  refine ⟨?_, ?_, ?_, ?_, ?_⟩
  · intro hb
    cases asc <;> simp [lplBreakingCond, lplExtensionCond] at hb ⊢ <;> simp [hb.1]
  · intro hb out hout
    simp only [lplLoop, hb, if_true] at hout
    cases herr : findRelativePivot zig row.pdi (-1) with
    | error e => rw [herr] at hout; simp at hout
    | ok prevPdi =>
      rw [herr] at hout
      cases hfind : zig.find? (fun p => p.pdi == breakingPdi) with
      | none => rw [hfind] at hout; simp at hout
      | some brokenLpl =>
        rw [hfind] at hout
        simp only [Option.some.injEq] at hout
        rw [← hout]
  · intro hb he prevPdi hprev prevPivot hfind res appends hrec
    simp only [lplLoop, hb, he, if_true, if_false, Bool.false_eq_true, hprev, hfind, hrec]
  · intro hb he
    simp only [lplLoop, hb, he, if_false, Bool.false_eq_true]
  · intro startPdi startingPivot hfind out hout
    constructor <;> intro hty <;>
      simp only [detectFirstBrokenLpl, hfind, hty, beq_self_eq_true, if_true,
        beq_iff_eq, reduceCtorEq] at hout <;>
      (repeat' split at hout) <;>
      first
        | (cases hout; rfl)
        | simp_all

theorem claim_C4_witness :
    lplExtensionCond true 22 ⟨6, 9, PivotType.valley⟩ = false ∧
    ((some (⟨⟨3, 12, PivotType.valley⟩, 5⟩ : LplResult), ([] : List Nat)) :
        Option LplResult × List Nat).2 = [] ∧
    lplLoop true pairDfW4 zigW4 0 10 20
        [⟨4, 22, PivotType.peak⟩, ⟨6, 9, PivotType.valley⟩] =
      some (some ⟨⟨3, 12, PivotType.valley⟩, 5⟩, [3]) ∧
    lplLoop true pairDfW4 zigW4 0 10 20
        [⟨3, 12, PivotType.valley⟩, ⟨4, 22, PivotType.peak⟩, ⟨6, 9, PivotType.valley⟩] =
      lplLoop true pairDfW4 zigW4 0 10 20
        [⟨4, 22, PivotType.peak⟩, ⟨6, 9, PivotType.valley⟩] ∧
    (⟨some ⟨⟨3, 12, PivotType.valley⟩, 5⟩, [3], []⟩ : LplOutput).appendsPeak = [] := by
  refine ⟨?_, ?_, ?_, ?_, ?_⟩
  · exact (claim_C4 true pairDfW4 zigW4 3 12 22 ⟨6, 9, PivotType.valley⟩ []).1 (by decide)
  · exact (claim_C4 true pairDfW4 zigW4 3 12 22 ⟨6, 9, PivotType.valley⟩ []).2.1
      (by decide) (some ⟨⟨3, 12, PivotType.valley⟩, 5⟩, []) (by rfl)
  · exact (claim_C4 true pairDfW4 zigW4 0 10 20 ⟨4, 22, PivotType.peak⟩
      [⟨6, 9, PivotType.valley⟩]).2.2.1 (by decide) (by decide) 3 (by rfl)
      ⟨3, 12, PivotType.valley⟩ (by rfl) (some ⟨⟨3, 12, PivotType.valley⟩, 5⟩) [] (by rfl)
  · exact (claim_C4 true pairDfW4 zigW4 0 10 20 ⟨3, 12, PivotType.valley⟩
      [⟨4, 22, PivotType.peak⟩, ⟨6, 9, PivotType.valley⟩]).2.2.2.1 (by decide) (by decide)
  · exact ((claim_C4 true pairDfW4 zigW4 0 10 20 ⟨3, 12, PivotType.valley⟩
      [⟨4, 22, PivotType.peak⟩, ⟨6, 9, PivotType.valley⟩]).2.2.2.2 0
      ⟨0, 10, PivotType.valley⟩ (by rfl)
      ⟨some ⟨⟨3, 12, PivotType.valley⟩, 5⟩, [3], []⟩ (by rfl)).1 rfl

theorem findIdx?_pdi_of_sorted :
    ∀ (zig : List Pivot), List.Pairwise (fun a b : Pivot => a.pdi < b.pdi) zig →
    ∀ (i : Nat) (hi : i < zig.length),
      zig.findIdx? (fun p => p.pdi == (zig.get ⟨i, hi⟩).pdi) = some i := by
  intro zig
  induction zig with
  | nil => intro _ i hi; simp at hi
  | cons a l ih =>
    intro hs i hi
    cases i with
    | zero => simp [List.findIdx?_cons]
    | succ j =>
      have hj : j < l.length := by simpa using hi
      have hlt : a.pdi < (l.get ⟨j, hj⟩).pdi :=
        (List.pairwise_cons.1 hs).1 _ (List.get_mem l j hj)
      have hget : ((a :: l).get ⟨j + 1, hi⟩) = l.get ⟨j, hj⟩ := rfl
      rw [hget, List.findIdx?_cons, if_neg (by simp only [beq_iff_eq]; omega),
        List.findIdx?_succ, ih (List.pairwise_cons.1 hs).2 j hj]
      rfl

theorem find?_pdi_of_sorted :
    ∀ (zig : List Pivot), List.Pairwise (fun a b : Pivot => a.pdi < b.pdi) zig →
    ∀ (i : Nat) (hi : i < zig.length),
      zig.find? (fun p => p.pdi == (zig.get ⟨i, hi⟩).pdi) = some (zig.get ⟨i, hi⟩) := by
  intro zig
  induction zig with
  | nil => intro _ i hi; simp at hi
  | cons a l ih =>
    intro hs i hi
    cases i with
    | zero => simp
    | succ j =>
      have hj : j < l.length := by simpa using hi
      have hlt : a.pdi < (l.get ⟨j, hj⟩).pdi :=
        (List.pairwise_cons.1 hs).1 _ (List.get_mem l j hj)
      have hget : ((a :: l).get ⟨j + 1, hi⟩) = l.get ⟨j, hj⟩ := rfl
      rw [hget, List.find?_cons_of_neg _ (by simp only [beq_iff_eq]; omega)]
      exact ih (List.pairwise_cons.1 hs).2 j hj

theorem findRelativePivot_add (zig : List Pivot)
    (hs : List.Pairwise (fun a b : Pivot => a.pdi < b.pdi) zig)
    (s : Nat) (hslen : s < zig.length) (d : Nat) :
    (∀ h : s + d < zig.length,
      findRelativePivot zig (zig.get ⟨s, hslen⟩).pdi (d : Int) =
        Except.ok (zig.get ⟨s + d, h⟩).pdi) ∧
    (zig.length ≤ s + d →
      findRelativePivot zig (zig.get ⟨s, hslen⟩).pdi (d : Int) =
        Except.error FindErr.indexError) := by
  constructor
  · intro h
    simp only [findRelativePivot, findIdx?_pdi_of_sorted zig hs s hslen]
    rw [dif_pos (by constructor <;> omega)]
    have hidx : ((s : Int) + (d : Int)).toNat = s + d := by omega
    simp only [hidx]
  · intro h
    simp only [findRelativePivot, findIdx?_pdi_of_sorted zig hs s hslen]
    rw [dif_neg (by omega), dif_neg (by omega)]

theorem findRelativePivot_sub_one (zig : List Pivot)
    (hs : List.Pairwise (fun a b : Pivot => a.pdi < b.pdi) zig)
    (s : Nat) (hslen : s < zig.length) (hs1 : 1 ≤ s) :
    findRelativePivot zig (zig.get ⟨s, hslen⟩).pdi (-1) =
      Except.ok (zig.get ⟨s - 1, by omega⟩).pdi := by
  simp only [findRelativePivot, findIdx?_pdi_of_sorted zig hs s hslen]
  rw [dif_pos (by constructor <;> omega)]
  have hidx : ((s : Int) + (-1 : Int)).toNat = s - 1 := by omega
  simp only [hidx]

theorem filter_ge_pdi_eq_drop :
    ∀ (zig : List Pivot), List.Pairwise (fun a b : Pivot => a.pdi < b.pdi) zig →
    ∀ (m : Nat) (hm : m < zig.length) (t : Nat), t = (zig.get ⟨m, hm⟩).pdi →
      zig.filter (fun p => decide (t ≤ p.pdi)) = zig.drop m := by
  intro zig
  induction zig with
  | nil => intro _ m hm; simp at hm
  | cons a l ih =>
    intro hs m hm t ht
    cases m with
    | zero =>
      have : t = a.pdi := ht
      subst this
      rw [List.filter_cons, if_pos (by simp)]
      rw [List.drop_zero, List.filter_eq_self.2]
      intro x hx
      have := (List.pairwise_cons.1 hs).1 x hx
      simp only [decide_eq_true_eq]
      omega
    | succ j =>
      have hj : j < l.length := by simpa using hm
      have hget : ((a :: l).get ⟨j + 1, hm⟩) = l.get ⟨j, hj⟩ := rfl
      rw [hget] at ht
      have hlt : a.pdi < (l.get ⟨j, hj⟩).pdi :=
        (List.pairwise_cons.1 hs).1 _ (List.get_mem l j hj)
      rw [List.filter_cons, if_neg (by simp only [decide_eq_true_eq]; omega)]
      exact ih (List.pairwise_cons.1 hs).2 j hj t ht

theorem drop_dropLast_cons (zig : List Pivot) (m : Nat) (h : m + 1 < zig.length) :
    (zig.drop m).dropLast =
      zig.get ⟨m, by omega⟩ :: (zig.drop (m + 1)).dropLast := by
  rw [List.drop_eq_getElem_cons (by omega)]
  rw [List.dropLast_cons_of_ne_nil (by rw [Ne, List.drop_eq_nil_iff]; omega)]
  rfl

theorem drop_dropLast_nil (zig : List Pivot) (m : Nat) (h : zig.length ≤ m + 1) :
    (zig.drop m).dropLast = [] := by
  apply List.eq_nil_of_length_eq_zero
  simp only [List.length_dropLast, List.length_drop]
  omega

theorem pivotType_eq_of_ne (a b : PivotType) (h : a ≠ b) :
    a = b.flip := by
  cases a <;> cases b <;> simp_all [PivotType.flip]

theorem lplLoop_brokenLpl_type (pairDf : List Candle) (zig : List Pivot)
    (hs : List.Pairwise (fun a b : Pivot => a.pdi < b.pdi) zig)
    (ha : List.Chain' (fun a b : Pivot => a.pivot_type ≠ b.pivot_type) zig)
    (asc : Bool) (t : PivotType)
    (ht : t = if asc then PivotType.valley else PivotType.peak) :
    ∀ (rows : List Pivot) (m : Nat), 1 ≤ m → rows = (zig.drop m).dropLast →
    ∀ (bj : Nat) (hbj : bj < zig.length), (zig.get ⟨bj, hbj⟩).pivot_type = t →
    ∀ (bv ev : Int) (res : Option LplResult) (appends : List Nat),
      lplLoop asc pairDf zig (zig.get ⟨bj, hbj⟩).pdi bv ev rows = some (res, appends) →
      ∀ r, res = some r → r.brokenLpl.pivot_type = t := by
  intro rows
  induction rows with
  | nil =>
    intro m _ _ bj hbj _ bv ev res appends hloop r hr
    simp only [lplLoop, Option.some.injEq, Prod.mk.injEq] at hloop
    rw [hr] at hloop
    simp at hloop
  | cons row rest ih =>
    intro m hm hrows bj hbj hbt bv ev res appends hloop r hr
    have hmlen : m + 1 < zig.length := by
      by_contra hcon
      rw [drop_dropLast_nil zig m (by omega)] at hrows
      simp at hrows
    rw [drop_dropLast_cons zig m hmlen] at hrows
    injection hrows with hrow hrest
    subst hrow
    subst hrest
    by_cases hbc : lplBreakingCond asc bv (zig.get ⟨m, by omega⟩) = true
    · simp only [lplLoop, hbc, if_true,
        findRelativePivot_sub_one zig hs m (by omega) hm,
        find?_pdi_of_sorted zig hs bj hbj, Option.some.injEq, Prod.mk.injEq] at hloop
      rw [hr] at hloop
      have : r = ⟨zig.get ⟨bj, hbj⟩,
          lplBreakingCandlePdi asc pairDf bv (zig.get ⟨m - 1, by omega⟩).pdi
            (zig.get ⟨m, by omega⟩).pdi⟩ := by
        have h1 := hloop.1
        exact (Option.some.injEq _ _ ▸ h1).symm
      rw [this]
      exact hbt
    · by_cases hec : lplExtensionCond asc ev (zig.get ⟨m, by omega⟩) = true
      · simp only [lplLoop, hbc, hec, if_true, if_false, Bool.false_eq_true,
          findRelativePivot_sub_one zig hs m (by omega) hm,
          find?_pdi_of_sorted zig hs (m - 1) (by omega)] at hloop
        -- the recursive call's result must be some
        cases hrec : lplLoop asc pairDf zig (zig.get ⟨m - 1, by omega⟩).pdi
            (zig.get ⟨m - 1, by omega⟩).pivot_value
            (zig.get ⟨m, by omega⟩).pivot_value ((zig.drop (m + 1)).dropLast) with
        | none => rw [hrec] at hloop; simp at hloop
        | some pr =>
          rw [hrec] at hloop
          have htype : (zig.get ⟨m - 1, by omega⟩).pivot_type = t := by
            have hadj : (zig.get ⟨m - 1, by omega⟩).pivot_type ≠
                (zig.get ⟨m, by omega⟩).pivot_type := by
              have := List.chain'_iff_get.1 ha (m - 1) (by omega)
              have hidx : m - 1 + 1 = m := by omega
              simpa [hidx] using this
            have hrowt : (zig.get ⟨m, by omega⟩).pivot_type =
                (if asc then PivotType.peak else PivotType.valley) := by
              cases asc <;> simp [lplExtensionCond] at hec <;> exact hec.1
            have := pivotType_eq_of_ne _ _ hadj
            rw [hrowt] at this
            rw [this, ht]
            cases asc <;> simp [PivotType.flip]
          cases pr with
          | mk res2 appends2 =>
            simp only [Option.some.injEq, Prod.mk.injEq] at hloop
            exact ih (m + 1) (by omega) rfl (m - 1) (by omega) htype _ _ res2 appends2
              hrec r (by rw [hloop.1]; exact hr)
      · simp only [lplLoop, hbc, hec, if_false, Bool.false_eq_true] at hloop
        exact ih (m + 1) (by omega) rfl bj hbj hbt bv ev res appends hloop r hr

theorem findRelativePivot_one (zig : List Pivot)
    (hs : List.Pairwise (fun a b : Pivot => a.pdi < b.pdi) zig)
    (s : Nat) (hslen : s < zig.length) :
    (∀ h : s + 1 < zig.length,
      findRelativePivot zig (zig.get ⟨s, hslen⟩).pdi 1 =
        Except.ok (zig.get ⟨s + 1, h⟩).pdi) ∧
    (zig.length ≤ s + 1 →
      findRelativePivot zig (zig.get ⟨s, hslen⟩).pdi 1 =
        Except.error FindErr.indexError) := by
  constructor
  · intro h
    simp only [findRelativePivot, findIdx?_pdi_of_sorted zig hs s hslen]
    rw [dif_pos (by constructor <;> omega)]
    have hidx : ((s : Int) + 1).toNat = s + 1 := by omega
    simp only [hidx]
  · intro h
    simp only [findRelativePivot, findIdx?_pdi_of_sorted zig hs s hslen]
    rw [dif_neg (by omega), dif_neg (by omega)]

theorem findRelativePivot_two (zig : List Pivot)
    (hs : List.Pairwise (fun a b : Pivot => a.pdi < b.pdi) zig)
    (s : Nat) (hslen : s < zig.length) :
    (∀ h : s + 2 < zig.length,
      findRelativePivot zig (zig.get ⟨s, hslen⟩).pdi 2 =
        Except.ok (zig.get ⟨s + 2, h⟩).pdi) ∧
    (zig.length ≤ s + 2 →
      findRelativePivot zig (zig.get ⟨s, hslen⟩).pdi 2 =
        Except.error FindErr.indexError) := by
  constructor
  · intro h
    simp only [findRelativePivot, findIdx?_pdi_of_sorted zig hs s hslen]
    rw [dif_pos (by constructor <;> omega)]
    have hidx : ((s : Int) + 2).toNat = s + 2 := by omega
    simp only [hidx]
  · intro h
    simp only [findRelativePivot, findIdx?_pdi_of_sorted zig hs s hslen]
    rw [dif_neg (by omega), dif_neg (by omega)]

theorem detect_eq_of_sorted (pairDf : List Candle) (zig : List Pivot)
    (hpw : List.Pairwise (fun a b : Pivot => a.pdi < b.pdi) zig)
    (s : Nat) (hs' : s < zig.length) (h1 : s + 1 < zig.length) (h2 : s + 2 < zig.length) :
    detectFirstBrokenLpl pairDf zig (zig.get ⟨s, hs'⟩).pdi =
      (match lplLoop ((zig.get ⟨s, hs'⟩).pivot_type == PivotType.valley) pairDf zig
          (zig.get ⟨s, hs'⟩).pdi (zig.get ⟨s, hs'⟩).pivot_value
          (zig.get ⟨s + 1, h1⟩).pivot_value ((zig.drop (s + 2)).dropLast) with
       | none => none
       | some (res, appends) =>
          if (zig.get ⟨s, hs'⟩).pivot_type == PivotType.valley then
            some ⟨res, appends, []⟩
          else some ⟨res, [], appends⟩) := by
  simp only [detectFirstBrokenLpl, find?_pdi_of_sorted zig hpw s hs',
    (findRelativePivot_one zig hpw s hs').1 h1, pivotValueAt,
    find?_pdi_of_sorted zig hpw (s + 1) h1, Option.map_some',
    (findRelativePivot_two zig hpw s hs').1 h2,
    filter_ge_pdi_eq_drop zig hpw (s + 2) h2 _ rfl]

theorem detect_eq_noBreak_oob1 (pairDf : List Candle) (zig : List Pivot)
    (hpw : List.Pairwise (fun a b : Pivot => a.pdi < b.pdi) zig)
    (s : Nat) (hs' : s < zig.length) (h1 : zig.length ≤ s + 1) :
    detectFirstBrokenLpl pairDf zig (zig.get ⟨s, hs'⟩).pdi = some ⟨none, [], []⟩ := by
  simp only [detectFirstBrokenLpl, find?_pdi_of_sorted zig hpw s hs',
    (findRelativePivot_one zig hpw s hs').2 h1]

theorem detect_eq_noBreak_oob2 (pairDf : List Candle) (zig : List Pivot)
    (hpw : List.Pairwise (fun a b : Pivot => a.pdi < b.pdi) zig)
    (s : Nat) (hs' : s < zig.length) (h1 : s + 1 < zig.length)
    (h2 : zig.length ≤ s + 2) :
    detectFirstBrokenLpl pairDf zig (zig.get ⟨s, hs'⟩).pdi = some ⟨none, [], []⟩ := by
  simp only [detectFirstBrokenLpl, find?_pdi_of_sorted zig hpw s hs',
    (findRelativePivot_one zig hpw s hs').1 h1, pivotValueAt,
    find?_pdi_of_sorted zig hpw (s + 1) h1, Option.map_some',
    (findRelativePivot_two zig hpw s hs').2 h2]

/-- Claim C10 (confirmed): on a well-formed zigzag (strictly increasing pdi,
alternating types), a successful `detect_first_broken_lpl` returns a broken-level
pivot of the same type as the start pivot, so the caller's re-derivation of the
trend type from the broken level's type (`calc_h_o_zigzag` line 387) reproduces
the trend type of the scan that found it. -/
theorem claim_C10 (pairDf : List Candle) (zig : List Pivot)
    (hs : List.Chain' (fun a b : Pivot => a.pdi < b.pdi) zig)
    (ha : List.Chain' (fun a b : Pivot => a.pivot_type ≠ b.pivot_type) zig)
    (startPdi : Nat) (sp : Pivot)
    (hfind : zig.find? (fun p => p.pdi == startPdi) = some sp)
    (out : LplOutput) (hout : detectFirstBrokenLpl pairDf zig startPdi = some out)
    (r : LplResult) (hr : out.result = some r) :
    r.brokenLpl.pivot_type = sp.pivot_type ∧
    ((r.brokenLpl.pivot_type == PivotType.valley) =
      (sp.pivot_type == PivotType.valley)) := by
  haveI : IsTrans Pivot (fun a b : Pivot => a.pdi < b.pdi) :=
    ⟨fun _ _ _ hx hy => Nat.lt_trans hx hy⟩
  have hpw : List.Pairwise (fun a b : Pivot => a.pdi < b.pdi) zig :=
    List.chain'_iff_pairwise.1 hs
  have hpdieq : sp.pdi = startPdi := by
    have := List.find?_some hfind
    simpa [beq_iff_eq] using this
  subst hpdieq
  obtain ⟨⟨s, hs'⟩, hsp⟩ := List.mem_iff_get.1 (List.mem_of_find?_eq_some hfind)
  subst hsp
  by_cases h1 : s + 1 < zig.length
  · by_cases h2 : s + 2 < zig.length
    · rw [detect_eq_of_sorted pairDf zig hpw s hs' h1 h2] at hout
      cases hloop : lplLoop ((zig.get ⟨s, hs'⟩).pivot_type == PivotType.valley) pairDf
          zig (zig.get ⟨s, hs'⟩).pdi (zig.get ⟨s, hs'⟩).pivot_value
          (zig.get ⟨s + 1, h1⟩).pivot_value ((zig.drop (s + 2)).dropLast) with
      | none => rw [hloop] at hout; simp at hout
      | some pr =>
        obtain ⟨res, appends⟩ := pr
        rw [hloop] at hout
        have hres : out.result = res := by
          by_cases hasc : ((zig.get ⟨s, hs'⟩).pivot_type == PivotType.valley) = true
          · simp only [hasc, if_true, Option.some.injEq] at hout
            rw [← hout]
          · simp only [Bool.not_eq_true] at hasc
            simp only [hasc, Bool.false_eq_true, if_false, Option.some.injEq] at hout
            rw [← hout]
        have htmain := lplLoop_brokenLpl_type pairDf zig hpw ha
          ((zig.get ⟨s, hs'⟩).pivot_type == PivotType.valley)
          (if (zig.get ⟨s, hs'⟩).pivot_type == PivotType.valley then PivotType.valley
            else PivotType.peak) rfl
          ((zig.drop (s + 2)).dropLast) (s + 2) (by omega) rfl s hs'
          (by cases h : (zig.get ⟨s, hs'⟩).pivot_type <;> simp [h])
          (zig.get ⟨s, hs'⟩).pivot_value (zig.get ⟨s + 1, h1⟩).pivot_value res appends
          hloop r (by rw [← hres]; exact hr)
        constructor
        · rw [htmain]
          cases h : (zig.get ⟨s, hs'⟩).pivot_type <;> simp [h]
        · rw [htmain]
          cases h : (zig.get ⟨s, hs'⟩).pivot_type <;> simp [h]
    · rw [detect_eq_noBreak_oob2 pairDf zig hpw s hs' h1 (by omega)] at hout
      injection hout with h
      rw [← h] at hr
      simp at hr
  · rw [detect_eq_noBreak_oob1 pairDf zig hpw s hs' (by omega)] at hout
    injection hout with h
    rw [← h] at hr
    simp at hr

theorem claim_C10_witness :
    (⟨⟨3, 12, PivotType.valley⟩, 5⟩ : LplResult).brokenLpl.pivot_type =
      (⟨0, 10, PivotType.valley⟩ : Pivot).pivot_type :=
  (claim_C10 pairDfW4 zigW4 (by simp [zigW4]) (by simp [zigW4]) 0 ⟨0, 10, PivotType.valley⟩
    (by rfl) ⟨some ⟨⟨3, 12, PivotType.valley⟩, 5⟩, [3], []⟩ (by rfl)
    ⟨⟨3, 12, PivotType.valley⟩, 5⟩ (by rfl)).1

theorem sentKeyClose_cases (o : SentOutput) : sentKeyClose o = 1 ∨ sentKeyClose o = 2 := by
  unfold sentKeyClose
  split <;> simp

theorem sentKeyLt_iff (a b : SentOutput) :
    sentKeyLt a b = true ↔ sentKeyNum a < sentKeyNum b := by
  have ha := sentKeyClose_cases a
  have hb := sentKeyClose_cases b
  simp only [sentKeyLt, sentKeyNum, Bool.or_eq_true, Bool.and_eq_true,
    decide_eq_true_eq, beq_iff_eq]
  omega

theorem mem_insertByKey (x y : SentOutput) :
    ∀ l, y ∈ insertByKey x l ↔ y = x ∨ y ∈ l := by
  intro l
  induction l with
  | nil => simp [insertByKey]
  | cons z zs ih =>
    simp only [insertByKey]
    split
    · simp [List.mem_cons]
    · simp only [List.mem_cons, ih]
      tauto

theorem insertByKey_head (x : SentOutput) (l : List SentOutput) :
    (insertByKey x l).head? = some x ∨ (insertByKey x l).head? = l.head? := by
  cases l with
  | nil => simp [insertByKey]
  | cons z zs =>
    simp only [insertByKey]
    split
    · left; rfl
    · right; rfl

theorem insertByKey_sorted (x : SentOutput) :
    ∀ l, List.Chain' (fun u v : SentOutput => sentKeyNum u ≤ sentKeyNum v) l →
      List.Chain' (fun u v : SentOutput => sentKeyNum u ≤ sentKeyNum v)
        (insertByKey x l) := by
  intro l
  induction l with
  | nil => intro _; simp [insertByKey]
  | cons z zs ih =>
    intro hl
    simp only [insertByKey]
    split
    · rename_i hlt
      exact List.chain'_cons.2 ⟨le_of_lt ((sentKeyLt_iff x z).1 hlt), hl⟩
    · rename_i hnlt
      have hzx : sentKeyNum z ≤ sentKeyNum x := by
        have : ¬ sentKeyNum x < sentKeyNum z := fun hc => hnlt ((sentKeyLt_iff x z).2 hc)
        omega
      apply List.chain'_cons'.2
      refine ⟨?_, ih (List.chain'_cons'.1 hl).2⟩
      intro h hh
      rcases insertByKey_head x zs with hh2 | hh2
      · rw [hh2] at hh
        simp only [Option.mem_def, Option.some.injEq] at hh
        subst hh
        exact hzx
      · rw [hh2] at hh
        exact (List.chain'_cons'.1 hl).1 h hh

theorem stableSortByKey_facts :
    ∀ (l acc : List SentOutput),
      (List.Chain' (fun u v : SentOutput => sentKeyNum u ≤ sentKeyNum v) acc →
        List.Chain' (fun u v : SentOutput => sentKeyNum u ≤ sentKeyNum v)
          (l.foldl (fun acc x => insertByKey x acc) acc)) ∧
      (∀ y, y ∈ l.foldl (fun acc x => insertByKey x acc) acc ↔ y ∈ l ∨ y ∈ acc) := by
  intro l
  induction l with
  | nil => intro acc; exact ⟨fun h => h, by simp⟩
  | cons x xs ih =>
    intro acc
    constructor
    · intro hacc
      rw [List.foldl_cons]
      exact (ih _).1 (insertByKey_sorted x acc hacc)
    · intro y
      rw [List.foldl_cons, (ih _).2 y]
      simp only [mem_insertByKey, List.mem_cons]
      tauto

theorem stableSortByKey_sorted (l : List SentOutput) :
    List.Chain' (fun u v : SentOutput => sentKeyNum u ≤ sentKeyNum v)
      (stableSortByKey l) :=
  (stableSortByKey_facts l []).1 List.chain'_nil

theorem mem_stableSortByKey (l : List SentOutput) (y : SentOutput) :
    y ∈ stableSortByKey l ↔ y ∈ l := by
  rw [stableSortByKey, (stableSortByKey_facts l []).2]
  simp

theorem head_min_of_sorted (l : List SentOutput)
    (hl : List.Chain' (fun u v : SentOutput => sentKeyNum u ≤ sentKeyNum v) l)
    (o : SentOutput) (ho : l.head? = some o) :
    ∀ x ∈ l, sentKeyNum o ≤ sentKeyNum x := by
  haveI : IsTrans SentOutput (fun u v : SentOutput => sentKeyNum u ≤ sentKeyNum v) :=
    ⟨fun _ _ _ hx hy => le_trans hx hy⟩
  cases l with
  | nil => simp at ho
  | cons z zs =>
    simp only [List.head?_cons, Option.some.injEq] at ho
    subst ho
    intro x hx
    rcases List.mem_cons.1 hx with hx | hx
    · rw [hx]
    · exact (List.pairwise_cons.1 (List.chain'_iff_pairwise.1 hl)).1 x hx

theorem selectSentiment_cases (a b c d : Option Nat) :
    (selectSentiment a b c d = ⟨Sentiment.noBreak, none⟩ ∧
      a = none ∧ b = none ∧ c = none ∧ d = none) ∨
    ((selectSentiment a b c d = ⟨Sentiment.pbosShadow, a⟩ ∨
        selectSentiment a b c d = ⟨Sentiment.pbosClose, b⟩ ∨
        selectSentiment a b c d = ⟨Sentiment.chochShadow, c⟩ ∨
        selectSentiment a b c d = ⟨Sentiment.chochClose, d⟩) ∧
      (selectSentiment a b c d).pdi.isSome = true ∧
      (a.isSome = true →
        sentKeyNum (selectSentiment a b c d) ≤ sentKeyNum ⟨Sentiment.pbosShadow, a⟩) ∧
      (b.isSome = true →
        sentKeyNum (selectSentiment a b c d) ≤ sentKeyNum ⟨Sentiment.pbosClose, b⟩) ∧
      (c.isSome = true →
        sentKeyNum (selectSentiment a b c d) ≤ sentKeyNum ⟨Sentiment.chochShadow, c⟩) ∧
      (d.isSome = true →
        sentKeyNum (selectSentiment a b c d) ≤ sentKeyNum ⟨Sentiment.chochClose, d⟩)) := by
  haveI : IsTrans SentOutput (fun u v : SentOutput => sentKeyNum u ≤ sentKeyNum v) :=
    ⟨fun _ _ _ hx hy => le_trans hx hy⟩
  set F := (stableSortByKey [⟨Sentiment.pbosShadow, a⟩, ⟨Sentiment.pbosClose, b⟩,
      ⟨Sentiment.chochShadow, c⟩, ⟨Sentiment.chochClose, d⟩]).filter
        (fun o => o.pdi.isSome) with hFdef
  have hr : selectSentiment a b c d =
      (match F.head? with
        | some o => o
        | none => ⟨Sentiment.noBreak, none⟩) := by
    rw [hFdef]
    rfl
  have hFS : ∀ x, x ∈ F ↔
      ((x = ⟨Sentiment.pbosShadow, a⟩ ∨ x = ⟨Sentiment.pbosClose, b⟩ ∨
        x = ⟨Sentiment.chochShadow, c⟩ ∨ x = ⟨Sentiment.chochClose, d⟩) ∧
        x.pdi.isSome = true) := by
    intro x
    rw [hFdef, List.mem_filter, mem_stableSortByKey]
    simp [List.mem_cons]
  have hFsorted : List.Chain' (fun u v : SentOutput => sentKeyNum u ≤ sentKeyNum v) F := by
    rw [hFdef]
    exact (stableSortByKey_sorted _).sublist (List.filter_sublist _)
  cases hF : F.head? with
  | none =>
    left
    have hFnil := List.head?_eq_none_iff.1 hF
    refine ⟨by rw [hr, hF], ?_, ?_, ?_, ?_⟩
    · by_contra hsome
      exact absurd ((hFS ⟨Sentiment.pbosShadow, a⟩).2
        ⟨Or.inl rfl, Option.ne_none_iff_isSome.1 hsome⟩)
        (hFnil ▸ List.not_mem_nil _)
    · by_contra hsome
      exact absurd ((hFS ⟨Sentiment.pbosClose, b⟩).2
        ⟨Or.inr (Or.inl rfl), Option.ne_none_iff_isSome.1 hsome⟩)
        (hFnil ▸ List.not_mem_nil _)
    · by_contra hsome
      exact absurd ((hFS ⟨Sentiment.chochShadow, c⟩).2
        ⟨Or.inr (Or.inr (Or.inl rfl)), Option.ne_none_iff_isSome.1 hsome⟩)
        (hFnil ▸ List.not_mem_nil _)
    · by_contra hsome
      exact absurd ((hFS ⟨Sentiment.chochClose, d⟩).2
        ⟨Or.inr (Or.inr (Or.inr rfl)), Option.ne_none_iff_isSome.1 hsome⟩)
        (hFnil ▸ List.not_mem_nil _)
  | some o =>
    right
    have hro : selectSentiment a b c d = o := by rw [hr, hF]
    have hoF : o ∈ F := List.mem_of_mem_head? (hF ▸ rfl)
    have homin := head_min_of_sorted F hFsorted o hF
    have hoL := (hFS o).1 hoF
    refine ⟨?_, ?_, ?_, ?_, ?_, ?_⟩
    · rcases hoL.1 with h | h | h | h <;> rw [hro, h] <;> simp
    · rw [hro]; exact hoL.2
    all_goals
      intro hsome
      rw [hro]
      apply homin
      apply (hFS _).2
      exact ⟨by simp, hsome⟩

theorem selectSentiment_spec (a b c d : Option Nat) :
    (((selectSentiment a b c d).sentiment = Sentiment.noBreak ∧
        (selectSentiment a b c d).pdi = none) ↔
      (a = none ∧ b = none ∧ c = none ∧ d = none)) ∧
    (∀ i : Nat, (a = some i ∨ b = some i ∨ c = some i ∨ d = some i) →
      ∃ j, (selectSentiment a b c d).pdi = some j ∧ j ≤ i) ∧
    (((selectSentiment a b c d).sentiment = Sentiment.pbosShadow →
        (selectSentiment a b c d).pdi = a) ∧
      ((selectSentiment a b c d).sentiment = Sentiment.pbosClose →
        (selectSentiment a b c d).pdi = b) ∧
      ((selectSentiment a b c d).sentiment = Sentiment.chochShadow →
        (selectSentiment a b c d).pdi = c) ∧
      ((selectSentiment a b c d).sentiment = Sentiment.chochClose →
        (selectSentiment a b c d).pdi = d)) ∧
    (∀ i : Nat, (selectSentiment a b c d).pdi = some i →
      (b = some i ∨ d = some i) →
      isCloseSent (selectSentiment a b c d).sentiment = true) ∧
    (∀ i : Nat, a = some i → d = some i → b ≠ some i →
      (∀ j, (a = some j ∨ b = some j ∨ c = some j ∨ d = some j) → i ≤ j) →
      selectSentiment a b c d = ⟨Sentiment.chochClose, some i⟩) := by
  rcases selectSentiment_cases a b c d with
    ⟨hsel, ha, hb, hc, hd⟩ | ⟨hmem, hsome, hma, hmb, hmc, hmd⟩
  · subst ha
    subst hb
    subst hc
    subst hd
    rw [hsel]
    refine ⟨by simp, ?_, ?_, ?_, ?_⟩
    · intro i h
      rcases h with h | h | h | h <;> simp at h
    · refine ⟨?_, ?_, ?_, ?_⟩ <;> intro h <;> simp at h
    · intro i h
      simp at h
    · intro i h
      simp at h
  · obtain ⟨j, hj⟩ := Option.isSome_iff_exists.1 hsome
    have hkey : sentKeyNum (selectSentiment a b c d) =
        j * 4 + sentKeyClose (selectSentiment a b c d) := by
      simp [sentKeyNum, sentKeyPdi, hj]
    have hclbound := sentKeyClose_cases (selectSentiment a b c d)
    refine ⟨?_, ?_, ?_, ?_, ?_⟩
    · constructor
      · intro ⟨h1, h2⟩
        rcases hmem with hm | hm | hm | hm <;> rw [hm] at h1 <;> simp at h1
      · intro ⟨ha, hb, hc, hd⟩
        rcases hmem with hm | hm | hm | hm <;> rw [hm] at hsome <;>
          simp [ha, hb, hc, hd] at hsome
    · intro i hsrc
      refine ⟨j, hj, ?_⟩
      rcases hsrc with h | h | h | h
      · have hle := hma (by rw [h]; rfl)
        have h2 : sentKeyNum (⟨Sentiment.pbosShadow, a⟩ : SentOutput) = i * 4 + 2 := by
          simp [sentKeyNum, sentKeyPdi, sentKeyClose, isCloseSent, h]
        omega
      · have hle := hmb (by rw [h]; rfl)
        have h2 : sentKeyNum (⟨Sentiment.pbosClose, b⟩ : SentOutput) = i * 4 + 1 := by
          simp [sentKeyNum, sentKeyPdi, sentKeyClose, isCloseSent, h]
        omega
      · have hle := hmc (by rw [h]; rfl)
        have h2 : sentKeyNum (⟨Sentiment.chochShadow, c⟩ : SentOutput) = i * 4 + 2 := by
          simp [sentKeyNum, sentKeyPdi, sentKeyClose, isCloseSent, h]
        omega
      · have hle := hmd (by rw [h]; rfl)
        have h2 : sentKeyNum (⟨Sentiment.chochClose, d⟩ : SentOutput) = i * 4 + 1 := by
          simp [sentKeyNum, sentKeyPdi, sentKeyClose, isCloseSent, h]
        omega
    · refine ⟨?_, ?_, ?_, ?_⟩ <;> intro h <;>
        rcases hmem with hm | hm | hm | hm <;> rw [hm] at h ⊢ <;>
        first
          | rfl
          | simp at h
    · intro i hpdi hbd
      have hji : j = i := by rw [hj] at hpdi; exact Option.some.injEq _ _ ▸ hpdi
      have hub : sentKeyNum (selectSentiment a b c d) ≤ i * 4 + 1 := by
        rcases hbd with h | h
        · have hle := hmb (by rw [h]; rfl)
          have h2 : sentKeyNum (⟨Sentiment.pbosClose, b⟩ : SentOutput) = i * 4 + 1 := by
            simp [sentKeyNum, sentKeyPdi, sentKeyClose, isCloseSent, h]
          omega
        · have hle := hmd (by rw [h]; rfl)
          have h2 : sentKeyNum (⟨Sentiment.chochClose, d⟩ : SentOutput) = i * 4 + 1 := by
            simp [sentKeyNum, sentKeyPdi, sentKeyClose, isCloseSent, h]
          omega
      by_cases hcl : isCloseSent (selectSentiment a b c d).sentiment = true
      · exact hcl
      · have h2 : sentKeyClose (selectSentiment a b c d) = 2 := by
          simp [sentKeyClose, hcl]
        omega
    · intro i hai hdi hbne hmin
      have hub : sentKeyNum (selectSentiment a b c d) ≤ i * 4 + 1 := by
        have hle := hmd (by rw [hdi]; rfl)
        have h2 : sentKeyNum (⟨Sentiment.chochClose, d⟩ : SentOutput) = i * 4 + 1 := by
          simp [sentKeyNum, sentKeyPdi, sentKeyClose, isCloseSent, hdi]
        omega
      rcases hmem with hm | hm | hm | hm
      · have hpa : a = some j := by rw [hm] at hj; exact hj
        have hmin1 := hmin j (Or.inl hpa)
        have h2 : sentKeyClose (selectSentiment a b c d) = 2 := by
          rw [hm]
          simp [sentKeyClose, isCloseSent]
        omega
      · have hpb : b = some j := by rw [hm] at hj; exact hj
        have hmin1 := hmin j (Or.inr (Or.inl hpb))
        have h2 : sentKeyClose (selectSentiment a b c d) = 1 := by
          rw [hm]
          simp [sentKeyClose, isCloseSent]
        have hji : j = i := by omega
        exact absurd (hji ▸ hpb) hbne
      · have hpc : c = some j := by rw [hm] at hj; exact hj
        have hmin1 := hmin j (Or.inr (Or.inr (Or.inl hpc)))
        have h2 : sentKeyClose (selectSentiment a b c d) = 2 := by
          rw [hm]
          simp [sentKeyClose, isCloseSent]
        omega
      · rw [hm, hdi]

/-- Claim C2 (confirmed): `__detect_breaking_sentiment` returns the condition whose
first satisfying candle index in the window is smallest; on an exact index tie a
close event outranks a shadow event — in particular a window whose minimal index is
achieved by PBOS-shadow and CHOCH-close (and not by PBOS-close) classifies as
CHOCH_CLOSE; and when no condition is ever satisfied the result is NONE with a
null pdi. -/
theorem claim_C2 (pairDf : List Candle) (pbosValue : Int) (pbosPdi : Nat)
    (chochValue : Int) (asc : Bool) :
    (((detectBreakingSentiment pairDf pbosValue pbosPdi chochValue asc).sentiment =
          Sentiment.noBreak ∧
        (detectBreakingSentiment pairDf pbosValue pbosPdi chochValue asc).pdi = none) ↔
      (∀ s : Sentiment, sentFirstOf pairDf pbosValue pbosPdi chochValue asc s = none)) ∧
    (∀ (s : Sentiment) (i : Nat),
      sentFirstOf pairDf pbosValue pbosPdi chochValue asc s = some i →
      ∃ j, (detectBreakingSentiment pairDf pbosValue pbosPdi chochValue asc).pdi =
          some j ∧ j ≤ i) ∧
    ((detectBreakingSentiment pairDf pbosValue pbosPdi chochValue asc).sentiment ≠
        Sentiment.noBreak →
      sentFirstOf pairDf pbosValue pbosPdi chochValue asc
          (detectBreakingSentiment pairDf pbosValue pbosPdi chochValue asc).sentiment =
        (detectBreakingSentiment pairDf pbosValue pbosPdi chochValue asc).pdi) ∧
    (∀ (s : Sentiment) (i : Nat),
      (detectBreakingSentiment pairDf pbosValue pbosPdi chochValue asc).pdi = some i →
      sentFirstOf pairDf pbosValue pbosPdi chochValue asc s = some i →
      isCloseSent s = true →
      isCloseSent
        (detectBreakingSentiment pairDf pbosValue pbosPdi chochValue asc).sentiment =
        true) ∧
    (∀ i : Nat,
      sentFirstOf pairDf pbosValue pbosPdi chochValue asc Sentiment.pbosShadow = some i →
      sentFirstOf pairDf pbosValue pbosPdi chochValue asc Sentiment.chochClose = some i →
      sentFirstOf pairDf pbosValue pbosPdi chochValue asc Sentiment.pbosClose ≠ some i →
      (∀ (s : Sentiment) (j : Nat),
        sentFirstOf pairDf pbosValue pbosPdi chochValue asc s = some j → i ≤ j) →
      detectBreakingSentiment pairDf pbosValue pbosPdi chochValue asc =
        ⟨Sentiment.chochClose, some i⟩) := by
  have hd : detectBreakingSentiment pairDf pbosValue pbosPdi chochValue asc =
      selectSentiment
        (pbosShadowFirst (sentimentWindow pairDf pbosPdi) pbosValue asc)
        (pbosCloseFirst (sentimentWindow pairDf pbosPdi) pbosValue asc)
        (chochShadowFirst (sentimentWindow pairDf pbosPdi) chochValue asc)
        (chochCloseFirst (sentimentWindow pairDf pbosPdi) chochValue asc) := rfl
  obtain ⟨hp1, hp2, hp3, hp4, hp5⟩ := selectSentiment_spec
    (pbosShadowFirst (sentimentWindow pairDf pbosPdi) pbosValue asc)
    (pbosCloseFirst (sentimentWindow pairDf pbosPdi) pbosValue asc)
    (chochShadowFirst (sentimentWindow pairDf pbosPdi) chochValue asc)
    (chochCloseFirst (sentimentWindow pairDf pbosPdi) chochValue asc)
  refine ⟨?_, ?_, ?_, ?_, ?_⟩
  · rw [hd]
    constructor
    · intro h
      obtain ⟨ha, hb, hc, hd2⟩ := hp1.1 h
      intro s
      cases s <;> simp [sentFirstOf, ha, hb, hc, hd2]
    · intro h
      exact hp1.2 ⟨h Sentiment.pbosShadow, h Sentiment.pbosClose,
        h Sentiment.chochShadow, h Sentiment.chochClose⟩
  · intro s i h
    rw [hd]
    cases s with
    | pbosShadow => exact hp2 i (Or.inl h)
    | pbosClose => exact hp2 i (Or.inr (Or.inl h))
    | chochShadow => exact hp2 i (Or.inr (Or.inr (Or.inl h)))
    | chochClose => exact hp2 i (Or.inr (Or.inr (Or.inr h)))
    | noBreak => exact absurd h (by simp [sentFirstOf])
  · intro hne
    rw [hd] at hne ⊢
    cases hsent : (selectSentiment
        (pbosShadowFirst (sentimentWindow pairDf pbosPdi) pbosValue asc)
        (pbosCloseFirst (sentimentWindow pairDf pbosPdi) pbosValue asc)
        (chochShadowFirst (sentimentWindow pairDf pbosPdi) chochValue asc)
        (chochCloseFirst (sentimentWindow pairDf pbosPdi) chochValue asc)).sentiment with
    | pbosShadow => simpa [sentFirstOf] using (hp3.1 hsent).symm
    | pbosClose => simpa [sentFirstOf] using (hp3.2.1 hsent).symm
    | chochShadow => simpa [sentFirstOf] using (hp3.2.2.1 hsent).symm
    | chochClose => simpa [sentFirstOf] using (hp3.2.2.2 hsent).symm
    | noBreak => exact absurd hsent hne
  · intro s i hpdi hfirst hclose
    rw [hd] at hpdi ⊢
    cases s with
    | pbosClose => exact hp4 i hpdi (Or.inl hfirst)
    | chochClose => exact hp4 i hpdi (Or.inr hfirst)
    | pbosShadow => simp [isCloseSent] at hclose
    | chochShadow => simp [isCloseSent] at hclose
    | noBreak => simp [isCloseSent] at hclose
  · intro i ha hd2 hb hmin
    rw [hd]
    refine hp5 i ha hd2 hb ?_
    intro j hj
    rcases hj with h | h | h | h
    · exact hmin Sentiment.pbosShadow j h
    · exact hmin Sentiment.pbosClose j h
    · exact hmin Sentiment.chochShadow j h
    · exact hmin Sentiment.chochClose j h

theorem claim_C2_witness :
    detectBreakingSentiment dfC2 100 0 10 true = ⟨Sentiment.chochClose, some 3⟩ ∧
    (∃ j, (detectBreakingSentiment dfC2 100 0 10 true).pdi = some j ∧ j ≤ 3) ∧
    isCloseSent (detectBreakingSentiment dfC2 100 0 10 true).sentiment = true ∧
    sentFirstOf dfC2 100 0 10 true
        (detectBreakingSentiment dfC2 100 0 10 true).sentiment =
      (detectBreakingSentiment dfC2 100 0 10 true).pdi := by
  refine ⟨?_, ?_, ?_, ?_⟩
  · refine (claim_C2 dfC2 100 0 10 true).2.2.2.2 3 rfl rfl (by decide) ?_
    intro s j h
    cases s with
    | pbosShadow =>
      rw [show sentFirstOf dfC2 100 0 10 true Sentiment.pbosShadow = some 3 from rfl] at h
      injection h with h2
      omega
    | pbosClose =>
      rw [show sentFirstOf dfC2 100 0 10 true Sentiment.pbosClose =
        (none : Option Nat) from rfl] at h
      simp at h
    | chochShadow =>
      rw [show sentFirstOf dfC2 100 0 10 true Sentiment.chochShadow = some 3 from rfl] at h
      injection h with h2
      omega
    | chochClose =>
      rw [show sentFirstOf dfC2 100 0 10 true Sentiment.chochClose = some 3 from rfl] at h
      injection h with h2
      omega
    | noBreak =>
      rw [show sentFirstOf dfC2 100 0 10 true Sentiment.noBreak =
        (none : Option Nat) from rfl] at h
      simp at h
  · exact (claim_C2 dfC2 100 0 10 true).2.1 Sentiment.pbosShadow 3 rfl
  · exact (claim_C2 dfC2 100 0 10 true).2.2.2.1 Sentiment.chochClose 3 rfl rfl rfl
  · exact (claim_C2 dfC2 100 0 10 true).2.2.1 (by decide)

theorem cancelLoopAux_le (outcomes : Nat → CancelOutcome) :
    ∀ (fuel calls : Nat), cancelLoopAux outcomes fuel calls ≤ calls + fuel := by
  intro fuel
  induction fuel with
  | zero => intro calls; simp [cancelLoopAux]
  | succ f ih =>
    intro calls
    simp only [cancelLoopAux]
    cases ho : outcomes calls with
    | otherFail => exact le_trans (ih (calls + 1)) (by omega)
    | success => exact (by omega : calls + 1 ≤ calls + (f + 1))
    | alreadyEntered => exact (by omega : calls + 1 ≤ calls + (f + 1))

theorem cancelLoopAux_stops (outcomes : Nat → CancelOutcome) :
    ∀ (k fuel calls : Nat), k < fuel →
      (∀ m, m < k → outcomes (calls + m) = CancelOutcome.otherFail) →
      outcomes (calls + k) ≠ CancelOutcome.otherFail →
      cancelLoopAux outcomes fuel calls = calls + k + 1 := by
  intro k
  induction k with
  | zero =>
    intro fuel calls hk _ hstop
    cases fuel with
    | zero => omega
    | succ f =>
      simp only [cancelLoopAux]
      cases ho : outcomes calls with
      | otherFail => exact absurd (by simpa using ho) hstop
      | success => rfl
      | alreadyEntered => rfl
  | succ k ih =>
    intro fuel calls hk hfails hstop
    cases fuel with
    | zero => omega
    | succ f =>
      simp only [cancelLoopAux]
      have h0 : outcomes calls = CancelOutcome.otherFail := by
        simpa using hfails 0 (by omega)
      rw [h0]
      have := ih f (calls + 1) (by omega)
        (fun m hm => by
          have := hfails (m + 1) (by omega)
          simpa [Nat.add_assoc, Nat.add_comm 1 m] using this)
        (by
          have heq : calls + 1 + k = calls + (k + 1) := by omega
          rw [heq]
          exact hstop)
      show cancelLoopAux outcomes f (calls + 1) = calls + (k + 1) + 1
      rw [this]
      omega

/-- Claim C8 (confirmed): `determine_main_loop_start_type` signals RESET_POSITIONS
exactly when no segment start time was previously recorded for the symbol or the
latest Segment's start time is strictly later than the recorded one; on RESET the
tracked-position list is cleared and the new segment start time recorded, with each
position receiving at most 3 `cancel_position()` calls and any call that does not
raise a generic failure (success or the benign "already entered" RuntimeError)
stopping the retries immediately; otherwise it signals NO_NEW_SEGMENT and leaves
the per-pair entry untouched with no cancel calls. -/
theorem claim_C8 (pairDf : List Candle) (segments : List Segment) (info : PairInfo)
    (lastSeg : Segment) (hlast : segments.getLast? = some lastSeg)
    (newTime : Int) (htime : timeAtPdi pairDf lastSeg.start_pdi = some newTime) :
    ((info.latestSegmentStartTime = none ∨
        (∃ t, info.latestSegmentStartTime = some t ∧ t < newTime)) →
      determineMainLoopStartType pairDf segments info =
        some ⟨StartType.resetPositions,
          ⟨some newTime, [], false, "CANCELED_POSITIONS"⟩,
          if info.latestSegmentStartTime.isNone then []
          else info.positions.map cancelCalls⟩) ∧
    ((∀ t, info.latestSegmentStartTime = some t → ¬(t < newTime)) →
      info.latestSegmentStartTime ≠ none →
      determineMainLoopStartType pairDf segments info =
        some ⟨StartType.noNewSegment, info, []⟩) ∧
    (∀ p : PosModel, cancelCalls p ≤ 3) ∧
    (∀ (p : PosModel) (k : Nat), k < 3 →
      (∀ m, m < k → p.outcomes m = CancelOutcome.otherFail) →
      p.outcomes k ≠ CancelOutcome.otherFail → cancelCalls p = k + 1) := by
  refine ⟨?_, ?_, ?_, ?_⟩
  · intro hcond
    cases hver : info.latestSegmentStartTime with
    | none =>
      simp [determineMainLoopStartType, hlast, htime, hver]
    | some t =>
      rcases hcond with h | ⟨t2, ht2, hlt⟩
      · rw [hver] at h; cases h
      · rw [hver] at ht2
        injection ht2 with ht2
        subst ht2
        simp [determineMainLoopStartType, hlast, htime, hver, hlt]
  · intro hnot hne
    cases hver : info.latestSegmentStartTime with
    | none => exact absurd hver hne
    | some t =>
      have := hnot t hver
      simp [determineMainLoopStartType, hlast, htime, hver, this]
  · intro p
    have := cancelLoopAux_le p.outcomes 3 0
    simpa [cancelCalls] using this
  · intro p k hk hfails hstop
    have := cancelLoopAux_stops p.outcomes k 3 0 hk
      (fun m hm => by simpa using hfails m hm) (by simpa using hstop)
    simpa [cancelCalls] using this

theorem claim_C8_witness :
    determineMainLoopStartType dfC8 [segW8] ⟨some 150, [posW8], true, "X"⟩ =
      some ⟨StartType.resetPositions, ⟨some 200, [], false, "CANCELED_POSITIONS"⟩,
        if (some (150 : Int)).isNone then [] else [posW8].map cancelCalls⟩ ∧
    determineMainLoopStartType dfC8 [segW8] ⟨some 200, [posW8], true, "X"⟩ =
      some ⟨StartType.noNewSegment, ⟨some 200, [posW8], true, "X"⟩, []⟩ ∧
    cancelCalls posW8 ≤ 3 ∧
    cancelCalls posW8 = 0 + 1 := by
  refine ⟨?_, ?_, ?_, ?_⟩
  · exact (claim_C8 dfC8 [segW8] ⟨some 150, [posW8], true, "X"⟩ segW8 rfl 200 rfl).1
      (Or.inr ⟨150, rfl, by norm_num⟩)
  · exact (claim_C8 dfC8 [segW8] ⟨some 200, [posW8], true, "X"⟩ segW8 rfl 200 rfl).2.1
      (by intro t ht; injection ht with ht; subst ht; omega) (by simp)
  · exact (claim_C8 dfC8 [segW8] ⟨none, [], false, ""⟩ segW8 rfl 200 rfl).2.2.1 posW8
  · exact (claim_C8 dfC8 [segW8] ⟨none, [], false, ""⟩ segW8 rfl 200 rfl).2.2.2 posW8 0
      (by omega) (fun m hm => absurd hm (by omega)) (by simp [posW8])

theorem dfWf_get_pdi (df : List Candle) (hwf : dfWf df) (i : Nat) (h : i < df.length) :
    (df.get ⟨i, h⟩).pdi = i := by
  have hcast := congrArg (fun l : List Nat => l[i]?) hwf
  simp only [List.getElem?_map, List.getElem?_eq_getElem h, Option.map_some',
    List.getElem?_range (by simpa using h)] at hcast
  have hget : df[i] = df.get ⟨i, h⟩ := rfl
  rw [hget] at hcast
  injection hcast


theorem dfWf_mem_pdi (df : List Candle) (hwf : dfWf df) (c : Candle) (hc : c ∈ df) :
    c.pdi < df.length ∧ df[c.pdi]? = some c := by
  obtain ⟨i, hi, hgi⟩ := List.mem_iff_getElem.1 hc
  have hpdi : c.pdi = i := by
    rw [← hgi]
    have hg : df[i] = df.get ⟨i, hi⟩ := rfl
    rw [hg, dfWf_get_pdi df hwf i hi]
  constructor
  · rw [hpdi]; exact hi
  · rw [hpdi, List.getElem?_eq_getElem hi, hgi]

/-- Claim C9 (confirmed): in `form_potential_ob`, when validation mode is on,
neither the reentry-check window nor the condition-check window contains a candle
whose pdi is at or after `position_activation_threshold`; when validation mode is
off, both windows extend to the latest available candle (every candle from the
window start onward belongs to the window). -/
theorem claim_C9 (pairDf : List Candle) (hwf : dfWf pairDf) (startIndex : Nat)
    (exitIdx : Nat) (threshold : Nat) :
    (∀ rw cw, formPotentialObWindows true pairDf startIndex (some exitIdx)
        threshold = some (rw, cw) →
      (∀ c ∈ rw, c.pdi < threshold) ∧ (∀ c ∈ cw, c.pdi < threshold)) ∧
    (∀ rw cw, formPotentialObWindows false pairDf startIndex (some exitIdx)
        threshold = some (rw, cw) →
      (∀ c ∈ pairDf, exitIdx + 1 ≤ c.pdi → c ∈ rw) ∧
      (∀ c ∈ pairDf, startIndex ≤ c.pdi → c ∈ cw)) ∧
    (formPotentialObWindows true pairDf startIndex none threshold = none) := by
  have hmemtake : ∀ (n : Nat) (c : Candle), c ∈ pairDf.take n → c.pdi < n := by
    intro n c hc
    obtain ⟨i, hi, hgi⟩ := List.mem_take_iff_getElem.1 hc
    have hgi2 : pairDf.get ⟨i, by omega⟩ = c := hgi
    rw [← hgi2, dfWf_get_pdi pairDf hwf i (by omega)]
    omega
  refine ⟨?_, ?_, rfl⟩
  · intro rw cw h
    simp only [formPotentialObWindows, pySlice, if_true, Option.some.injEq,
      Prod.mk.injEq] at h
    obtain ⟨hrw, hcw⟩ := h
    constructor
    · intro c hc
      rw [← hrw] at hc
      exact hmemtake threshold c (List.mem_of_mem_drop hc)
    · intro c hc
      rw [← hcw] at hc
      exact hmemtake threshold c (List.mem_of_mem_drop hc)
  · intro rw cw h
    simp only [formPotentialObWindows, Bool.false_eq_true, if_false, Option.some.injEq,
      Prod.mk.injEq] at h
    obtain ⟨hrw, hcw⟩ := h
    constructor
    · intro c hc hge
      rw [← hrw]
      obtain ⟨hlt, hget⟩ := dfWf_mem_pdi pairDf hwf c hc
      rw [List.mem_drop_iff_getElem]
      refine ⟨c.pdi - (exitIdx + 1), by omega, ?_⟩
      have hq : pairDf[exitIdx + 1 + (c.pdi - (exitIdx + 1))]? = some c := by
        have harith : exitIdx + 1 + (c.pdi - (exitIdx + 1)) = c.pdi := by omega
        rw [harith]
        exact hget
      rw [List.getElem?_eq_getElem (by omega)] at hq
      injection hq
    · intro c hc hge
      rw [← hcw]
      obtain ⟨hlt, hget⟩ := dfWf_mem_pdi pairDf hwf c hc
      rw [List.mem_drop_iff_getElem]
      refine ⟨c.pdi - startIndex, by omega, ?_⟩
      have hq : pairDf[startIndex + (c.pdi - startIndex)]? = some c := by
        have harith : startIndex + (c.pdi - startIndex) = c.pdi := by omega
        rw [harith]
        exact hget
      rw [List.getElem?_eq_getElem (by omega)] at hq
      injection hq

theorem claim_C9_witness :
    (⟨2, 2, 20, 14, 19, CandleColor.green⟩ : Candle).pdi < 3 ∧
    (⟨8, 8, 30, 16, 29, CandleColor.green⟩ : Candle) ∈ List.drop 2 pairDfW4 ∧
    formPotentialObWindows true pairDfW4 1 none 3 = none := by
  refine ⟨?_, ?_, ?_⟩
  · exact ((claim_C9 pairDfW4 (by decide) 1 1 3).1 (pySlice pairDfW4 2 3)
      (pySlice pairDfW4 1 3) rfl).1 ⟨2, 2, 20, 14, 19, CandleColor.green⟩ (by decide)
  · exact ((claim_C9 pairDfW4 (by decide) 1 1 3).2.1 (pairDfW4.drop 2)
      (pairDfW4.drop 1) rfl).1 ⟨8, 8, 30, 16, 29, CandleColor.green⟩ (by decide)
      (by decide)
  · exact (claim_C9 pairDfW4 (by decide) 1 1 3).2.2

theorem getLastD_default_irrel (a : Nat) (l : List Nat) (d d' : Nat) :
    (a :: l).getLastD d = (a :: l).getLastD d' := rfl

theorem getLastD_eq_of_getLast? (l : List Nat) (x : Nat) (h : l.getLast? = some x)
    (d : Nat) : l.getLastD d = x := by
  rw [List.getLastD_eq_getLast? d l, h]
  rfl

theorem getLast?_mem_pivot (l : List Pivot) (x : Pivot) (h : l.getLast? = some x) :
    x ∈ l := by
  induction l with
  | nil => simp at h
  | cons a t ih =>
    cases t with
    | nil =>
      simp only [List.getLast?_singleton, Option.some.injEq] at h
      simp [h]
    | cons b t2 =>
      rw [List.getLast?_cons_cons] at h
      exact List.mem_cons_of_mem a (ih h)

theorem getD_append_left_nat (l : List Nat) (x : Nat) :
    ∀ (i : Nat), i < l.length → ∀ d, (l ++ [x]).getD i d = l.getD i d := by
  induction l with
  | nil => intro i hi; simp at hi
  | cons a t ih =>
    intro i hi d
    cases i with
    | zero => rfl
    | succ j => exact ih j (by simpa using hi) d

theorem getD_last_eq_getLastD :
    ∀ (l : List Nat), l ≠ [] → ∀ d, l.getD (l.length - 1) d = l.getLastD d := by
  intro l
  induction l with
  | nil => intro h; exact absurd rfl h
  | cons a t ih =>
    intro _ d
    cases t with
    | nil => rfl
    | cons b t2 =>
      have h1 : (b :: t2).getD ((b :: t2).length - 1) d = (b :: t2).getLastD d :=
        ih (by simp) d
      exact h1

theorem chain_le_getD_getLastD :
    ∀ (l : List Nat), List.Chain' (fun a b : Nat => a ≤ b) l →
      ∀ (i : Nat), i < l.length → ∀ d, l.getD i d ≤ l.getLastD d := by
  intro l
  induction l with
  | nil => intro _ i hi; simp at hi
  | cons a t ih =>
    intro hc i hi d
    cases t with
    | nil =>
      have : i = 0 := by simpa using hi
      subst this
      exact le_refl a
    | cons b t2 =>
      have hc' := List.chain'_cons.1 hc
      cases i with
      | zero =>
        have hb : (b :: t2).getD 0 d ≤ (b :: t2).getLastD d :=
          ih hc'.2 0 (by simp) d
        exact le_trans hc'.1 hb
      | succ j =>
        exact ih hc'.2 j (by simpa using hi) d

theorem getLastD_concat_nat (l : List Nat) (x d : Nat) :
    (l ++ [x]).getLastD d = x :=
  List.getLastD_concat d x l

theorem get_pdi_le_of_sorted (zig : List Pivot)
    (hpw : List.Pairwise (fun a b : Pivot => a.pdi < b.pdi) zig)
    (i j : Nat) (hj : j < zig.length) (hij : i ≤ j) :
    (zig.get ⟨i, lt_of_le_of_lt hij hj⟩).pdi ≤ (zig.get ⟨j, hj⟩).pdi := by
  rcases Nat.lt_or_ge i j with h | h
  · exact le_of_lt (List.pairwise_iff_get.1 hpw ⟨i, lt_of_le_of_lt hij hj⟩ ⟨j, hj⟩ h)
  · have hij2 : i = j := le_antisymm hij h
    subst hij2
    exact le_refl _

theorem pivot_eq_of_pdi_eq (zig : List Pivot)
    (hpw : List.Pairwise (fun a b : Pivot => a.pdi < b.pdi) zig)
    (p q : Pivot) (hp : p ∈ zig) (hq : q ∈ zig) (h : p.pdi = q.pdi) : p = q := by
  obtain ⟨⟨i, hi⟩, hpi⟩ := List.mem_iff_get.1 hp
  obtain ⟨⟨j, hj⟩, hqj⟩ := List.mem_iff_get.1 hq
  rcases Nat.lt_trichotomy i j with hij | hij | hij
  · have hlt := List.pairwise_iff_get.1 hpw ⟨i, hi⟩ ⟨j, hj⟩ hij
    rw [hpi, hqj] at hlt
    omega
  · subst hij
    rw [← hpi, ← hqj]
  · have hlt := List.pairwise_iff_get.1 hpw ⟨j, hj⟩ ⟨i, hi⟩ hij
    rw [hpi, hqj] at hlt
    omega

theorem le_getLast_pdi_of_sorted (l : List Pivot)
    (hpw : List.Pairwise (fun a b : Pivot => a.pdi < b.pdi) l)
    (y : Pivot) (hy : l.getLast? = some y) (x : Pivot) (hx : x ∈ l) :
    x.pdi ≤ y.pdi := by
  induction l with
  | nil => simp at hy
  | cons a t ih =>
    cases t with
    | nil =>
      simp only [List.getLast?_singleton, Option.some.injEq] at hy
      subst hy
      simp only [List.mem_singleton] at hx
      subst hx
      exact le_refl _
    | cons b t2 =>
      rw [List.getLast?_cons_cons] at hy
      have hymem : y ∈ b :: t2 := getLast?_mem_pivot _ _ hy
      rcases List.mem_cons.1 hx with hx | hx
      · subst hx
        exact le_of_lt ((List.pairwise_cons.1 hpw).1 y hymem)
      · exact ih (List.pairwise_cons.1 hpw).2 hy hx

theorem firstArgmaxVal_mem : ∀ (l : List Pivot) (p : Pivot),
    firstArgmaxVal l = some p → p ∈ l := by
  intro l
  induction l with
  | nil => intro p h; simp [firstArgmaxVal] at h
  | cons a t ih =>
    intro p h
    unfold firstArgmaxVal at h
    split at h
    · injection h with h
      subst h
      exact List.mem_cons_self a t
    · split at h
      · injection h with h
        subst h
        rename_i q heq _
        exact List.mem_cons_of_mem a (ih _ heq)
      · injection h with h
        subst h
        exact List.mem_cons_self a t

theorem firstArgminVal_mem : ∀ (l : List Pivot) (p : Pivot),
    firstArgminVal l = some p → p ∈ l := by
  intro l
  induction l with
  | nil => intro p h; simp [firstArgminVal] at h
  | cons a t ih =>
    intro p h
    unfold firstArgminVal at h
    split at h
    · injection h with h
      subst h
      exact List.mem_cons_self a t
    · split at h
      · injection h with h
        subst h
        rename_i q heq _
        exact List.mem_cons_of_mem a (ih _ heq)
      · injection h with h
        subst h
        exact List.mem_cons_self a t

theorem findRelativePivot_one_ok (zig : List Pivot)
    (hpw : List.Pairwise (fun a b : Pivot => a.pdi < b.pdi) zig)
    (j : Nat) (hj : j < zig.length) (b : Nat)
    (h : findRelativePivot zig (zig.get ⟨j, hj⟩).pdi 1 = Except.ok b) :
    ∃ hj1 : j + 1 < zig.length, b = (zig.get ⟨j + 1, hj1⟩).pdi := by
  by_cases hlen : j + 1 < zig.length
  · refine ⟨hlen, ?_⟩
    rw [(findRelativePivot_one zig hpw j hj).1 hlen] at h
    injection h with h
    exact h.symm
  · rw [(findRelativePivot_one zig hpw j hj).2 (by omega)] at h
    exact absurd h (by simp)

theorem lplLoop_brokenLpl_spec (pairDf : List Candle) (zig : List Pivot)
    (hs : List.Pairwise (fun a b : Pivot => a.pdi < b.pdi) zig)
    (ha : List.Chain' (fun a b : Pivot => a.pivot_type ≠ b.pivot_type) zig)
    (asc : Bool) (t : PivotType)
    (ht : t = if asc then PivotType.valley else PivotType.peak) (lb : Nat) :
    ∀ (rows : List Pivot) (m : Nat), 1 ≤ m → rows = (zig.drop m).dropLast →
    ∀ (bj : Nat) (hbj : bj < zig.length), bj < m →
      (zig.get ⟨bj, hbj⟩).pivot_type = t → lb ≤ (zig.get ⟨bj, hbj⟩).pdi →
    ∀ (bv ev : Int) (res : Option LplResult) (appends : List Nat),
      lplLoop asc pairDf zig (zig.get ⟨bj, hbj⟩).pdi bv ev rows = some (res, appends) →
      ∀ r, res = some r →
        ∃ (j : Nat) (hj : j < zig.length), r.brokenLpl = zig.get ⟨j, hj⟩ ∧
          (zig.get ⟨j, hj⟩).pivot_type = t ∧ lb ≤ (zig.get ⟨j, hj⟩).pdi := by
  intro rows
  induction rows with
  | nil =>
    intro m _ _ bj hbj _ _ _ bv ev res appends hloop r hr
    simp only [lplLoop, Option.some.injEq, Prod.mk.injEq] at hloop
    rw [hr] at hloop
    simp at hloop
  | cons row rest ih =>
    intro m hm hrows bj hbj hbm hbt hlb bv ev res appends hloop r hr
    have hmlen : m + 1 < zig.length := by
      by_contra hcon
      rw [drop_dropLast_nil zig m (by omega)] at hrows
      simp at hrows
    rw [drop_dropLast_cons zig m hmlen] at hrows
    injection hrows with hrow hrest
    subst hrow
    subst hrest
    by_cases hbc : lplBreakingCond asc bv (zig.get ⟨m, by omega⟩) = true
    · simp only [lplLoop, hbc, if_true,
        findRelativePivot_sub_one zig hs m (by omega) hm,
        find?_pdi_of_sorted zig hs bj hbj, Option.some.injEq, Prod.mk.injEq] at hloop
      rw [hr] at hloop
      have hreq : r = ⟨zig.get ⟨bj, hbj⟩,
          lplBreakingCandlePdi asc pairDf bv (zig.get ⟨m - 1, by omega⟩).pdi
            (zig.get ⟨m, by omega⟩).pdi⟩ := by
        have h1 := hloop.1
        exact (Option.some.injEq _ _ ▸ h1).symm
      refine ⟨bj, hbj, ?_, hbt, hlb⟩
      rw [hreq]
    · by_cases hec : lplExtensionCond asc ev (zig.get ⟨m, by omega⟩) = true
      · simp only [lplLoop, hbc, hec, if_true, if_false, Bool.false_eq_true,
          findRelativePivot_sub_one zig hs m (by omega) hm,
          find?_pdi_of_sorted zig hs (m - 1) (by omega)] at hloop
        cases hrec : lplLoop asc pairDf zig (zig.get ⟨m - 1, by omega⟩).pdi
            (zig.get ⟨m - 1, by omega⟩).pivot_value
            (zig.get ⟨m, by omega⟩).pivot_value ((zig.drop (m + 1)).dropLast) with
        | none => rw [hrec] at hloop; simp at hloop
        | some pr =>
          rw [hrec] at hloop
          have htype : (zig.get ⟨m - 1, by omega⟩).pivot_type = t := by
            have hadj : (zig.get ⟨m - 1, by omega⟩).pivot_type ≠
                (zig.get ⟨m, by omega⟩).pivot_type := by
              have hch := List.chain'_iff_get.1 ha (m - 1) (by omega)
              have hidx : m - 1 + 1 = m := by omega
              simpa [hidx] using hch
            have hrowt : (zig.get ⟨m, by omega⟩).pivot_type =
                (if asc then PivotType.peak else PivotType.valley) := by
              cases asc <;> simp [lplExtensionCond] at hec <;> exact hec.1
            have hflip := pivotType_eq_of_ne _ _ hadj
            rw [hrowt] at hflip
            rw [hflip, ht]
            cases asc <;> simp [PivotType.flip]
          have hlb2 : lb ≤ (zig.get ⟨m - 1, by omega⟩).pdi := by
            have hmono := get_pdi_le_of_sorted zig hs bj (m - 1) (by omega) (by omega)
            exact le_trans hlb hmono
          cases pr with
          | mk res2 appends2 =>
            simp only [Option.some.injEq, Prod.mk.injEq] at hloop
            exact ih (m + 1) (by omega) rfl (m - 1) (by omega) (by omega) htype hlb2
              _ _ res2 appends2 hrec r (by rw [hloop.1]; exact hr)
      · simp only [lplLoop, hbc, hec, if_false, Bool.false_eq_true] at hloop
        exact ih (m + 1) (by omega) rfl bj hbj (by omega) hbt hlb bv ev res appends hloop
          r hr

theorem detect_result_spec (pairDf : List Candle) (zig : List Pivot)
    (hs : List.Chain' (fun a b : Pivot => a.pdi < b.pdi) zig)
    (ha : List.Chain' (fun a b : Pivot => a.pivot_type ≠ b.pivot_type) zig)
    (startPdi : Nat) (sp : Pivot)
    (hfind : zig.find? (fun p => p.pdi == startPdi) = some sp)
    (out : LplOutput) (hout : detectFirstBrokenLpl pairDf zig startPdi = some out)
    (r : LplResult) (hr : out.result = some r) :
    ∃ (j : Nat) (hj : j < zig.length), r.brokenLpl = zig.get ⟨j, hj⟩ ∧
      r.brokenLpl.pivot_type = sp.pivot_type ∧ sp.pdi ≤ r.brokenLpl.pdi := by
  haveI : IsTrans Pivot (fun a b : Pivot => a.pdi < b.pdi) :=
    ⟨fun _ _ _ hx hy => Nat.lt_trans hx hy⟩
  have hpw : List.Pairwise (fun a b : Pivot => a.pdi < b.pdi) zig :=
    List.chain'_iff_pairwise.1 hs
  have hpdieq : sp.pdi = startPdi := by
    have hfs := List.find?_some hfind
    simpa [beq_iff_eq] using hfs
  subst hpdieq
  obtain ⟨⟨s, hs'⟩, hsp⟩ := List.mem_iff_get.1 (List.mem_of_find?_eq_some hfind)
  subst hsp
  by_cases h1 : s + 1 < zig.length
  · by_cases h2 : s + 2 < zig.length
    · rw [detect_eq_of_sorted pairDf zig hpw s hs' h1 h2] at hout
      cases hloop : lplLoop ((zig.get ⟨s, hs'⟩).pivot_type == PivotType.valley) pairDf
          zig (zig.get ⟨s, hs'⟩).pdi (zig.get ⟨s, hs'⟩).pivot_value
          (zig.get ⟨s + 1, h1⟩).pivot_value ((zig.drop (s + 2)).dropLast) with
      | none => rw [hloop] at hout; simp at hout
      | some pr =>
        obtain ⟨res, appends⟩ := pr
        rw [hloop] at hout
        have hres : out.result = res := by
          by_cases hasc : ((zig.get ⟨s, hs'⟩).pivot_type == PivotType.valley) = true
          · simp only [hasc, if_true, Option.some.injEq] at hout
            rw [← hout]
          · simp only [Bool.not_eq_true] at hasc
            simp only [hasc, Bool.false_eq_true, if_false, Option.some.injEq] at hout
            rw [← hout]
        obtain ⟨j, hj, hbeq, hbt, hblb⟩ := lplLoop_brokenLpl_spec pairDf zig hpw ha
          ((zig.get ⟨s, hs'⟩).pivot_type == PivotType.valley)
          (if (zig.get ⟨s, hs'⟩).pivot_type == PivotType.valley then PivotType.valley
            else PivotType.peak) rfl (zig.get ⟨s, hs'⟩).pdi
          ((zig.drop (s + 2)).dropLast) (s + 2) (by omega) rfl s hs' (by omega)
          (by cases h : (zig.get ⟨s, hs'⟩).pivot_type <;> simp [h]) (le_refl _)
          (zig.get ⟨s, hs'⟩).pivot_value (zig.get ⟨s + 1, h1⟩).pivot_value res appends
          hloop r (by rw [← hres]; exact hr)
        refine ⟨j, hj, hbeq, ?_, ?_⟩
        · rw [hbeq, hbt]
          cases h : (zig.get ⟨s, hs'⟩).pivot_type <;> simp [h]
        · rw [hbeq]
          exact hblb
    · rw [detect_eq_noBreak_oob2 pairDf zig hpw s hs' h1 (by omega)] at hout
      injection hout with h
      rw [← h] at hr
      simp at hr
  · rw [detect_eq_noBreak_oob1 pairDf zig hpw s hs' (by omega)] at hout
    injection hout with h
    rw [← h] at hr
    simp at hr

theorem sentimentWindow_pdi_gt (pairDf : List Candle) (hwf : dfWf pairDf)
    (pbosPdi : Nat) (c : Candle) (hc : c ∈ sentimentWindow pairDf pbosPdi) :
    pbosPdi < c.pdi := by
  have hc2 : c ∈ pairDf.drop (pbosPdi + 1) :=
    List.Sublist.mem hc (List.dropLast_sublist _)
  rw [List.mem_drop_iff_getElem] at hc2
  obtain ⟨i, hi, hgi⟩ := hc2
  have hpdi : c.pdi = pbosPdi + 1 + i := by
    rw [← hgi]
    have hg : pairDf[pbosPdi + 1 + i] = pairDf.get ⟨pbosPdi + 1 + i, by omega⟩ := rfl
    rw [hg, dfWf_get_pdi pairDf hwf _ (by omega)]
  omega

theorem sentiment_pdi_gt (pairDf : List Candle) (hwf : dfWf pairDf)
    (pbosValue : Int) (pbosPdi : Nat) (chochValue : Int) (asc : Bool) (b : Nat)
    (hb : (detectBreakingSentiment pairDf pbosValue pbosPdi chochValue asc).pdi =
      some b) : pbosPdi < b := by
  have hfirst : ∀ (f : Candle → Bool),
      ((sentimentWindow pairDf pbosPdi).find? f).map Candle.pdi = some b →
      pbosPdi < b := by
    intro f hf
    obtain ⟨c, hc, hcp⟩ := Option.map_eq_some'.1 hf
    have hmem := List.mem_of_find?_eq_some hc
    have hgt := sentimentWindow_pdi_gt pairDf hwf pbosPdi c hmem
    omega
  simp only [detectBreakingSentiment] at hb
  rcases selectSentiment_cases
      (pbosShadowFirst (sentimentWindow pairDf pbosPdi) pbosValue asc)
      (pbosCloseFirst (sentimentWindow pairDf pbosPdi) pbosValue asc)
      (chochShadowFirst (sentimentWindow pairDf pbosPdi) chochValue asc)
      (chochCloseFirst (sentimentWindow pairDf pbosPdi) chochValue asc) with
    ⟨hsel, _, _, _, _⟩ | ⟨hmem4, _⟩
  · rw [hsel] at hb
    simp at hb
  · rcases hmem4 with h | h | h | h <;> rw [h] at hb <;> exact hfirst _ hb

theorem hoPbosClose_spec (zig : List Pivot)
    (hpw : List.Pairwise (fun a b : Pivot => a.pdi < b.pdi) zig)
    (st : HOState) (asc : Bool) (breakingPdi lplBreakingPdi brokenLplPdi : Nat)
    (h2 : List.Chain' (fun a b : Nat => a ≤ b) st.hoIndices)
    (h3 : SegMono st.segments)
    (h4 : ∀ lastSeg ∈ st.segments.getLast?,
      lastSeg.start_pdi ≤ st.hoIndices.getD (st.hoIndices.length - 2) 0) :
    SegMono (hoPbosClose zig st asc breakingPdi lplBreakingPdi brokenLplPdi).1.segments ∧
    ((hoPbosClose zig st asc breakingPdi lplBreakingPdi brokenLplPdi).2 = true →
      HOInv zig (hoPbosClose zig st asc breakingPdi lplBreakingPdi brokenLplPdi).1) ∧
    ∃ tail,
      (hoPbosClose zig st asc breakingPdi lplBreakingPdi brokenLplPdi).1.segments =
        st.segments ++ tail := by
  simp only [hoPbosClose]
  split
  · exact ⟨h3, fun h => Bool.noConfusion h, [], (List.append_nil _).symm⟩
  next hoLast hlast =>
    split
    · exact ⟨h3, fun h => Bool.noConfusion h, [], (List.append_nil _).symm⟩
    next extremumPivot hext =>
      have hextmem : extremumPivot ∈ zig.filter (fun p =>
          decide (hoLast ≤ p.pdi) && decide (p.pdi ≤ breakingPdi) &&
            (p.pivot_type == if asc then PivotType.valley else PivotType.peak)) := by
        by_cases hpt : ((if asc then PivotType.valley else PivotType.peak) ==
            PivotType.peak) = true
        · rw [if_pos hpt] at hext
          exact firstArgmaxVal_mem _ _ hext
        · rw [if_neg hpt] at hext
          exact firstArgminVal_mem _ _ hext
      obtain ⟨hzmem, hcond⟩ := List.mem_filter.1 hextmem
      simp only [Bool.and_eq_true, decide_eq_true_eq, beq_iff_eq] at hcond
      split
      · exact ⟨h3, fun h => Bool.noConfusion h, [], (List.append_nil _).symm⟩
      next patternStartPivot hps =>
        split
        next h3le =>
          simp only [List.length_append, List.length_cons, List.length_nil] at h3le
          have hL2 : 2 ≤ st.hoIndices.length := by omega
          have hLpos : st.hoIndices ≠ [] := by
            intro hnil
            rw [hnil] at h3le
            simp at h3le
          have hidx : (st.hoIndices ++ [extremumPivot.pdi]).length - 3 =
              st.hoIndices.length - 2 := by
            simp only [List.length_append, List.length_cons, List.length_nil]
            omega
          have hstart : (st.hoIndices ++ [extremumPivot.pdi]).getD
              ((st.hoIndices ++ [extremumPivot.pdi]).length - 3) 0 =
              st.hoIndices.getD (st.hoIndices.length - 2) 0 := by
            rw [hidx, getD_append_left_nat st.hoIndices _ _ (by omega)]
          have hanch : st.hoIndices.getD (st.hoIndices.length - 2) 0 ≤
              extremumPivot.pdi := by
            have hmono := chain_le_getD_getLastD st.hoIndices h2
              (st.hoIndices.length - 2) (by omega) 0
            have hlastd := getLastD_eq_of_getLast? st.hoIndices hoLast hlast 0
            omega
          have hseg : ∀ seg : Segment,
              seg.start_pdi = (st.hoIndices ++ [extremumPivot.pdi]).getD
                ((st.hoIndices ++ [extremumPivot.pdi]).length - 3) 0 →
              SegMono (st.segments ++ [seg]) := by
            intro seg hsegstart
            refine chain'_concat_of_last h3 ?_
            intro p hp
            have hple := h4 p hp
            rw [hsegstart, hstart]
            exact hple
          have hps2 : extremumPivot.pdi ≤ patternStartPivot.pdi := by
            refine le_getLast_pdi_of_sorted _ (hpw.filter _) _ hps extremumPivot ?_
            refine List.mem_filter.2 ⟨hzmem, ?_⟩
            simp only [Bool.and_eq_true, decide_eq_true_eq, beq_iff_eq]
            exact ⟨hcond.2, hcond.1.2⟩
          split
          · exact ⟨hseg _ rfl, fun h => Bool.noConfusion h, _, rfl⟩
          next latestChochPdi hlcp =>
            split
            · exact ⟨hseg _ rfl, fun h => Bool.noConfusion h, _, rfl⟩
            next v hv =>
              refine ⟨hseg _ rfl, fun _ => ?_, _, rfl⟩
              refine ⟨by simp, ?_, hseg _ rfl, ?_, ?_, ?_⟩
              · refine chain'_concat_of_last h2 ?_
                intro p hp
                rw [hlast] at hp
                simp only [Option.mem_def, Option.some.injEq] at hp
                subst hp
                exact hcond.1.1
              · intro lastSeg hls
                rw [List.getLast?_concat] at hls
                simp only [Option.mem_def, Option.some.injEq] at hls
                subst hls
                show _ ≤ (st.hoIndices ++ [extremumPivot.pdi]).getLastD 0
                rw [getLastD_concat_nat, hstart]
                exact hanch
              · intro _
                show (st.hoIndices ++ [extremumPivot.pdi]).getLastD 0 ≤
                  patternStartPivot.pdi
                rw [getLastD_concat_nat]
                exact hps2
              · intro q hq
                exact Option.noConfusion hq
        · exact ⟨h3, fun h => Bool.noConfusion h, [], (List.append_nil _).symm⟩

theorem hoChochClose_spec (zig : List Pivot)
    (hpw : List.Pairwise (fun a b : Pivot => a.pdi < b.pdi) zig)
    (st : HOState) (asc : Bool) (breakingPdi lplBreakingPdi brokenLplPdi : Nat)
    (h2 : List.Chain' (fun a b : Nat => a ≤ b) st.hoIndices)
    (h3 : SegMono st.segments)
    (h4 : ∀ lastSeg ∈ st.segments.getLast?,
      lastSeg.start_pdi ≤ st.hoIndices.getD (st.hoIndices.length - 2) 0)
    (hhp : ∃ hp ∈ zig, hp.pdi = st.hoIndices.getLastD 0 ∧
      hp.pivot_type = (if !asc then PivotType.valley else PivotType.peak))
    (hble : st.hoIndices.getLastD 0 ≤ breakingPdi) :
    SegMono (hoChochClose zig st asc breakingPdi lplBreakingPdi brokenLplPdi).1.segments ∧
    ((hoChochClose zig st asc breakingPdi lplBreakingPdi brokenLplPdi).2 = true →
      HOInv zig (hoChochClose zig st asc breakingPdi lplBreakingPdi brokenLplPdi).1) ∧
    ∃ tail,
      (hoChochClose zig st asc breakingPdi lplBreakingPdi brokenLplPdi).1.segments =
        st.segments ++ tail := by
  simp only [hoChochClose]
  split
  · exact ⟨h3, fun h => Bool.noConfusion h, [], (List.append_nil _).symm⟩
  next patternStartPivot hps =>
    split
    next h2le =>
      have hseg : ∀ seg : Segment,
          seg.start_pdi = st.hoIndices.getD (st.hoIndices.length - 2) 0 →
          SegMono (st.segments ++ [seg]) := by
        intro seg hsegstart
        refine chain'_concat_of_last h3 ?_
        intro p hp
        rw [hsegstart]
        exact h4 p hp
      split
      · exact ⟨hseg _ rfl, fun h => Bool.noConfusion h, _, rfl⟩
      next latestChochPdi hlcp =>
        split
        · exact ⟨hseg _ rfl, fun h => Bool.noConfusion h, _, rfl⟩
        next v hv =>
          refine ⟨hseg _ rfl, fun _ => ?_, _, rfl⟩
          obtain ⟨hp0, hpmem, hppdi, hptype⟩ := hhp
          have hpfilter : hp0 ∈ zig.filter (fun p =>
              (p.pivot_type == if !asc then PivotType.valley else PivotType.peak) &&
                decide (p.pdi ≤ breakingPdi)) := by
            refine List.mem_filter.2 ⟨hpmem, ?_⟩
            simp only [Bool.and_eq_true, decide_eq_true_eq, beq_iff_eq]
            exact ⟨hptype, by omega⟩
          have hps2 : st.hoIndices.getLastD 0 ≤ patternStartPivot.pdi := by
            have hle := le_getLast_pdi_of_sorted _ (hpw.filter _) _ hps hp0 hpfilter
            omega
          refine ⟨?_, h2, hseg _ rfl, ?_, ?_, ?_⟩
          · intro hnil
            rw [hnil] at h2le
            simp at h2le
          · intro lastSeg hls
            rw [List.getLast?_concat] at hls
            simp only [Option.mem_def, Option.some.injEq] at hls
            subst hls
            show st.hoIndices.getD (st.hoIndices.length - 2) 0 ≤
              st.hoIndices.getLastD 0
            exact chain_le_getD_getLastD st.hoIndices h2 _ (by omega) 0
          · intro _
            show st.hoIndices.getLastD 0 ≤ patternStartPivot.pdi
            exact hps2
          · intro q hq
            exact Option.noConfusion hq
    · exact ⟨h3, fun h => Bool.noConfusion h, [], (List.append_nil _).symm⟩


theorem hoSentimentStep_inv (pairDf : List Candle) (zig : List Pivot)
    (hwf : dfWf pairDf)
    (hpw : List.Pairwise (fun a b : Pivot => a.pdi < b.pdi) zig)
    (st : HOState) (asc : Bool) (lplBreakingPdi brokenLplPdi : Nat)
    (thr : Int) (qv : Nat)
    (hthr : st.latestPbosThreshold = some thr) (hqv : st.latestPbosPdi = some qv)
    (h2 : List.Chain' (fun a b : Nat => a ≤ b) st.hoIndices)
    (h3 : SegMono st.segments)
    (h4 : ∀ lastSeg ∈ st.segments.getLast?,
      lastSeg.start_pdi ≤ st.hoIndices.getD (st.hoIndices.length - 2) 0)
    (hql : st.hoIndices.getLastD 0 ≤ qv)
    (hqlen : 2 ≤ st.hoIndices.length)
    (hhp : ∃ hp ∈ zig, hp.pdi = st.hoIndices.getLastD 0 ∧
      hp.pivot_type = (if !asc then PivotType.valley else PivotType.peak) ∧
      ∃ sp ∈ zig, sp.pdi = st.patternStartPdi ∧ hp.pivot_type ≠ sp.pivot_type) :
    SegMono (hoSentimentStep pairDf zig st asc lplBreakingPdi brokenLplPdi).1.segments ∧
    ((hoSentimentStep pairDf zig st asc lplBreakingPdi brokenLplPdi).2 = true →
      HOInv zig (hoSentimentStep pairDf zig st asc lplBreakingPdi brokenLplPdi).1) ∧
    ∃ tail,
      (hoSentimentStep pairDf zig st asc lplBreakingPdi brokenLplPdi).1.segments =
        st.segments ++ tail := by
  have h1 : st.hoIndices ≠ [] := by
    intro hnil
    rw [hnil] at hqlen
    simp at hqlen
  simp only [hoSentimentStep]
  split
  next pbosThr pbosPdiVal heq1 heq2 =>
    have e1 : thr = pbosThr := by
      rw [hthr] at heq1
      exact Option.some.inj heq1
    have e2 : qv = pbosPdiVal := by
      rw [hqv] at heq2
      exact Option.some.inj heq2
    subst e1
    subst e2
    split
    next breakingPdi heqS heqP =>
      have hS1 : qv < breakingPdi :=
        sentiment_pdi_gt pairDf hwf thr qv st.latestChochThreshold _ breakingPdi heqP
      split
      · exact ⟨h3, fun h => Bool.noConfusion h, [], (List.append_nil _).symm⟩
      next c hc =>
        refine ⟨h3, fun _ => ?_, [], (List.append_nil _).symm⟩
        refine ⟨h1, h2, h3, ?_, ?_, ?_⟩
        · intro lastSeg hls
          exact h4 lastSeg hls
        · intro hno
          exact Option.noConfusion hno
        · intro q hq
          injection hq with hq
          subst hq
          obtain ⟨hp0, hm, hpd, hpt, sp0, hsm, hsd, hne⟩ := hhp
          exact ⟨by show st.hoIndices.getLastD 0 ≤ breakingPdi; omega,
            hqlen, hp0, hm, hpd, sp0, hsm, hsd, hne⟩
    next breakingPdi heqS heqP =>
      split
      · exact ⟨h3, fun h => Bool.noConfusion h, [], (List.append_nil _).symm⟩
      next c hc =>
        refine ⟨h3, fun _ => ?_, [], (List.append_nil _).symm⟩
        refine ⟨h1, h2, h3, ?_, ?_, ?_⟩
        · intro lastSeg hls
          have hle := h4 lastSeg hls
          simp only [hoAnchor, hqv]
          exact hle
        · intro hno
          have hno2 : st.latestPbosPdi = none := hno
          rw [hqv] at hno2
          exact Option.noConfusion hno2
        · intro q hq
          have hq2 : st.latestPbosPdi = some q := hq
          rw [hqv] at hq2
          injection hq2 with hq2
          subst hq2
          obtain ⟨hp0, hm, hpd, hpt, sp0, hsm, hsd, hne⟩ := hhp
          exact ⟨hql, hqlen, hp0, hm, hpd, sp0, hsm, hsd, hne⟩
    next breakingPdi heqS heqP =>
      exact hoPbosClose_spec zig hpw st asc breakingPdi lplBreakingPdi brokenLplPdi
        h2 h3 h4
    next breakingPdi heqS heqP =>
      have hS1 : qv < breakingPdi :=
        sentiment_pdi_gt pairDf hwf thr qv st.latestChochThreshold _ breakingPdi heqP
      obtain ⟨hp0, hm, hpd, hpt, sp0, hsm, hsd, hne⟩ := hhp
      exact hoChochClose_spec zig hpw st asc breakingPdi lplBreakingPdi brokenLplPdi
        h2 h3 h4 ⟨hp0, hm, hpd, hpt⟩ (by omega)
    next =>
      exact ⟨h3, fun h => Bool.noConfusion h, [], (List.append_nil _).symm⟩
  next himp =>
    exact (himp thr qv hthr hqv).elim

theorem hoIter_inv (pairDf : List Candle) (zig : List Pivot) (hwf : dfWf pairDf)
    (hchain : List.Chain' (fun a b : Pivot => a.pdi < b.pdi) zig)
    (ha : List.Chain' (fun a b : Pivot => a.pivot_type ≠ b.pivot_type) zig)
    (st : HOState) (hinv : HOInv zig st) :
    SegMono (hoIter pairDf zig st).1.segments ∧
    ((hoIter pairDf zig st).2 = true → HOInv zig (hoIter pairDf zig st).1) := by
  haveI : IsTrans Pivot (fun a b : Pivot => a.pdi < b.pdi) :=
    ⟨fun _ _ _ hx hy => Nat.lt_trans hx hy⟩
  have hpw : List.Pairwise (fun a b : Pivot => a.pdi < b.pdi) zig :=
    List.chain'_iff_pairwise.1 hchain
  obtain ⟨h1, h2, h3, h4, h5, h6⟩ := hinv
  have hL1 : 0 < st.hoIndices.length := List.length_pos.2 h1
  simp only [hoIter]
  split
  · exact ⟨h3, fun h => Bool.noConfusion h⟩
  next out hdet =>
    split
    · exact ⟨h3, fun h => Bool.noConfusion h⟩
    next res hres =>
      have hfind : ∃ sp, zig.find? (fun p => p.pdi == st.patternStartPdi) = some sp := by
        cases hf : zig.find? (fun p => p.pdi == st.patternStartPdi) with
        | none =>
          rw [detectFirstBrokenLpl, hf] at hdet
          exact absurd hdet (by simp)
        | some sp => exact ⟨sp, rfl⟩
      obtain ⟨sp, hfind⟩ := hfind
      have hspmem := List.mem_of_find?_eq_some hfind
      have hsppdi : sp.pdi = st.patternStartPdi := by
        have hfs := List.find?_some hfind
        simpa [beq_iff_eq] using hfs
      obtain ⟨j, hj, hB, hBt, hBp⟩ := detect_result_spec pairDf zig hchain ha
        st.patternStartPdi sp hfind out hdet res hres
      split
      · exact ⟨h3, fun h => Bool.noConfusion h⟩
      next bosPdi hbos =>
        rw [hB] at hbos
        obtain ⟨hj1, hbosPdi⟩ := findRelativePivot_one_ok zig hpw j hj bosPdi hbos
        have hBt2 : (zig.get ⟨j, hj⟩).pivot_type = sp.pivot_type := by
          rw [← hB]
          exact hBt
        have hjlt : (zig.get ⟨j, hj⟩).pdi < (zig.get ⟨j + 1, hj1⟩).pdi :=
          List.pairwise_iff_get.1 hpw ⟨j, hj⟩ ⟨j + 1, hj1⟩ (Nat.lt_succ_self j)
        have hspj : sp.pdi ≤ (zig.get ⟨j, hj⟩).pdi := by
          rw [hB] at hBp
          exact hBp
        have htypadj : (zig.get ⟨j + 1, hj1⟩).pivot_type ≠
            (zig.get ⟨j, hj⟩).pivot_type := by
          have hc := List.chain'_iff_get.1 ha j (by omega)
          exact hc.symm
        have hbosmem : zig.get ⟨j + 1, hj1⟩ ∈ zig := List.get_mem zig (j + 1) hj1
        have hflipT : (zig.get ⟨j + 1, hj1⟩).pivot_type =
            (if !(res.brokenLpl.pivot_type == PivotType.valley) then PivotType.valley
              else PivotType.peak) := by
          have hf2 := pivotType_eq_of_ne _ _ htypadj
          rw [hf2, hBt2, hBt]
          cases hspt : sp.pivot_type <;> simp [PivotType.flip]
        cases hpb : st.latestPbosPdi with
        | none =>
          cases hpv : pivotValueAt zig bosPdi with
          | none => exact ⟨h3, fun h => Bool.noConfusion h⟩
          | some v =>
            have hlastle := h5 hpb
            have hch2 : List.Chain' (fun a b : Nat => a ≤ b)
                (st.hoIndices ++ [bosPdi]) := by
              refine chain'_concat_of_last h2 ?_
              intro p hp
              have hpl : st.hoIndices.getLast? = some p := hp
              have hpd := getLastD_eq_of_getLast? st.hoIndices p hpl 0
              omega
            have hlen2 : 2 ≤ (st.hoIndices ++ [bosPdi]).length := by
              simp only [List.length_append, List.length_cons, List.length_nil]
              omega
            have hgetlast : (st.hoIndices ++ [bosPdi]).getLastD 0 = bosPdi :=
              getLastD_concat_nat _ _ _
            have hanch : hoAnchor st = st.hoIndices.getLastD 0 := by
              simp only [hoAnchor, hpb]
            have hidx2 : (st.hoIndices ++ [bosPdi]).length - 2 =
                st.hoIndices.length - 1 := by
              simp only [List.length_append, List.length_cons, List.length_nil]
              omega
            have hh4 : ∀ lastSeg ∈ st.segments.getLast?, lastSeg.start_pdi ≤
                (st.hoIndices ++ [bosPdi]).getD
                  ((st.hoIndices ++ [bosPdi]).length - 2) 0 := by
              intro lastSeg hls
              have hle := h4 lastSeg hls
              rw [hanch] at hle
              rw [hidx2, getD_append_left_nat st.hoIndices _ _ (by omega),
                getD_last_eq_getLastD st.hoIndices h1]
              exact hle
            have hne : (zig.get ⟨j + 1, hj1⟩).pivot_type ≠ sp.pivot_type := by
              have hne0 := htypadj
              rw [hBt2] at hne0
              exact hne0
            have hmain := hoSentimentStep_inv pairDf zig hwf hpw
              { st with lplValley := st.lplValley ++ out.appendsValley,
                        lplPeak := st.lplPeak ++ out.appendsPeak,
                        latestPbosPdi := some bosPdi,
                        latestPbosThreshold := some v,
                        hoIndices := st.hoIndices ++ [bosPdi],
                        pbosIndices := st.pbosIndices ++ [bosPdi] }
              (res.brokenLpl.pivot_type == PivotType.valley)
              res.breakingCandlePdi res.brokenLpl.pdi v bosPdi rfl rfl
              hch2 h3 hh4 (le_of_eq hgetlast) hlen2
              ⟨zig.get ⟨j + 1, hj1⟩, hbosmem, by rw [hgetlast, hbosPdi], hflipT,
                sp, hspmem, hsppdi, hne⟩
            exact ⟨hmain.1, hmain.2.1⟩
        | some q0 =>
          obtain ⟨hq0le, hq0len, hp0, hp0mem, hp0pdi, sp0, hsp0mem, hsp0pdi, hp0t⟩ :=
            h6 q0 hpb
          have hsp0 : sp0 = sp := pivot_eq_of_pdi_eq zig hpw sp0 sp hsp0mem hspmem
            (by rw [hsp0pdi, hsppdi])
          rw [hsp0] at hp0t
          have hanch : hoAnchor st = st.hoIndices.getD (st.hoIndices.length - 2) 0 := by
            simp only [hoAnchor, hpb]
          have hh4 : ∀ lastSeg ∈ st.segments.getLast?, lastSeg.start_pdi ≤
              st.hoIndices.getD (st.hoIndices.length - 2) 0 := by
            intro lastSeg hls
            have hle := h4 lastSeg hls
            rw [hanch] at hle
            exact hle
          have hflip2 : hp0.pivot_type =
              (if !(res.brokenLpl.pivot_type == PivotType.valley) then PivotType.valley
                else PivotType.peak) := by
            have hf2 := pivotType_eq_of_ne _ _ hp0t
            rw [hf2, hBt]
            cases hspt : sp.pivot_type <;> simp [PivotType.flip]
          cases hthr : st.latestPbosThreshold with
          | none => exact ⟨h3, fun h => Bool.noConfusion h⟩
          | some thr =>
            have hmain := hoSentimentStep_inv pairDf zig hwf hpw
              { st with lplValley := st.lplValley ++ out.appendsValley,
                        lplPeak := st.lplPeak ++ out.appendsPeak,
                        pbosIndices := st.pbosIndices ++ [bosPdi],
                        latestPbosPdi := some q0,
                        latestPbosThreshold := some thr }
              (res.brokenLpl.pivot_type == PivotType.valley)
              res.breakingCandlePdi res.brokenLpl.pdi thr q0 rfl rfl
              h2 h3 hh4 hq0le hq0len
              ⟨hp0, hp0mem, hp0pdi, hflip2, sp, hspmem, hsppdi, hp0t⟩
            exact ⟨hmain.1, hmain.2.1⟩

theorem hoPbosClose_prefix (zig : List Pivot) (st : HOState) (asc : Bool)
    (breakingPdi lplBreakingPdi brokenLplPdi : Nat) :
    ∃ tail, (hoPbosClose zig st asc breakingPdi lplBreakingPdi
      brokenLplPdi).1.segments = st.segments ++ tail := by
  simp only [hoPbosClose]
  repeat' split
  all_goals first
    | exact ⟨[], (List.append_nil _).symm⟩
    | exact ⟨_, rfl⟩

theorem hoChochClose_prefix (zig : List Pivot) (st : HOState) (asc : Bool)
    (breakingPdi lplBreakingPdi brokenLplPdi : Nat) :
    ∃ tail, (hoChochClose zig st asc breakingPdi lplBreakingPdi
      brokenLplPdi).1.segments = st.segments ++ tail := by
  simp only [hoChochClose]
  repeat' split
  all_goals first
    | exact ⟨[], (List.append_nil _).symm⟩
    | exact ⟨_, rfl⟩

theorem hoSentimentStep_prefix (pairDf : List Candle) (zig : List Pivot)
    (st : HOState) (asc : Bool) (lplBreakingPdi brokenLplPdi : Nat) :
    ∃ tail, (hoSentimentStep pairDf zig st asc lplBreakingPdi
      brokenLplPdi).1.segments = st.segments ++ tail := by
  simp only [hoSentimentStep]
  repeat' split
  all_goals first
    | exact ⟨[], (List.append_nil _).symm⟩
    | exact hoPbosClose_prefix _ _ _ _ _ _
    | exact hoChochClose_prefix _ _ _ _ _ _

theorem hoIter_prefix (pairDf : List Candle) (zig : List Pivot) (st : HOState) :
    ∃ tail, (hoIter pairDf zig st).1.segments = st.segments ++ tail := by
  simp only [hoIter]
  split
  · exact ⟨[], (List.append_nil _).symm⟩
  next out hdet =>
    split
    · exact ⟨[], (List.append_nil _).symm⟩
    next res hres =>
      split
      · exact ⟨[], (List.append_nil _).symm⟩
      next bosPdi hbos =>
        cases hpb : st.latestPbosPdi with
        | none =>
          cases hpv : pivotValueAt zig bosPdi with
          | none => exact ⟨[], (List.append_nil _).symm⟩
          | some v => exact hoSentimentStep_prefix _ _ _ _ _ _
        | some q0 => exact hoSentimentStep_prefix _ _ _ _ _ _

theorem hoLoop_extends (pairDf : List Candle) (zig : List Pivot) :
    ∀ (fuel : Nat) (st : HOState),
      ∃ tail, (hoLoop pairDf zig fuel st).segments = st.segments ++ tail := by
  intro fuel
  induction fuel with
  | zero => intro st; exact ⟨[], (List.append_nil _).symm⟩
  | succ n ih =>
    intro st
    obtain ⟨t1, ht1⟩ := hoIter_prefix pairDf zig st
    simp only [hoLoop]
    cases hit : hoIter pairDf zig st with
    | mk st' cont =>
      rw [hit] at ht1
      have ht1' : st'.segments = st.segments ++ t1 := ht1
      cases cont with
      | true =>
        obtain ⟨t2, ht2⟩ := ih st'
        refine ⟨t1 ++ t2, ?_⟩
        show (hoLoop pairDf zig n st').segments = st.segments ++ (t1 ++ t2)
        rw [ht2, ht1', List.append_assoc]
      | false => exact ⟨t1, ht1'⟩

theorem hoLoop_inv (pairDf : List Candle) (zig : List Pivot) (hwf : dfWf pairDf)
    (hchain : List.Chain' (fun a b : Pivot => a.pdi < b.pdi) zig)
    (ha : List.Chain' (fun a b : Pivot => a.pivot_type ≠ b.pivot_type) zig) :
    ∀ (fuel : Nat) (st : HOState), HOInv zig st →
      SegMono (hoLoop pairDf zig fuel st).segments := by
  intro fuel
  induction fuel with
  | zero => intro st hinv; exact hinv.2.2.1
  | succ n ih =>
    intro st hinv
    have hmain := hoIter_inv pairDf zig hwf hchain ha st hinv
    simp only [hoLoop]
    cases hit : hoIter pairDf zig st with
    | mk st' cont =>
      rw [hit] at hmain
      cases cont with
      | true => exact ih st' (hmain.2 rfl)
      | false => exact hmain.1

theorem hoLoop_prefix (pairDf : List Candle) (zig : List Pivot) :
    ∀ (f1 f2 : Nat), f1 ≤ f2 → ∀ st : HOState,
      ∃ tail, (hoLoop pairDf zig f2 st).segments =
        (hoLoop pairDf zig f1 st).segments ++ tail := by
  intro f1
  induction f1 with
  | zero =>
    intro f2 _ st
    exact hoLoop_extends pairDf zig f2 st
  | succ n ih =>
    intro f2 hle st
    cases f2 with
    | zero => omega
    | succ m =>
      simp only [hoLoop]
      cases hit : hoIter pairDf zig st with
      | mk st' cont =>
        cases cont with
        | true => exact ih m (by omega) st'
        | false => exact ⟨[], (List.append_nil _).symm⟩

theorem initHOState_inv (zig : List Pivot) (startingPdi : Nat) (st : HOState)
    (h : initHOState zig startingPdi = some st) : HOInv zig st := by
  simp only [initHOState] at h
  cases hv : pivotValueAt zig startingPdi with
  | none =>
    rw [hv] at h
    exact absurd h (by simp)
  | some v =>
    rw [hv] at h
    injection h with h
    subst h
    refine ⟨by simp, List.chain'_singleton _, List.chain'_nil, ?_, ?_, ?_⟩
    · intro lastSeg hls
      simp at hls
    · intro _
      exact le_refl _
    · intro q hq
      exact Option.noConfusion hq

/-- Claim C7 (confirmed): across any run of `calc_h_o_zigzag` on a well-formed
zigzag (strictly increasing pdi, alternating types, as `init_zigzag` guarantees)
over a well-formed pair dataframe, the Segments appended to the segments list
have non-decreasing `start_pdi`, and no Segment is mutated after it is appended:
a longer run extends the shorter run's segment list as an unchanged prefix. -/
theorem claim_C7 (pairDf : List Candle) (zig : List Pivot) (hwf : dfWf pairDf)
    (hchain : List.Chain' (fun a b : Pivot => a.pdi < b.pdi) zig)
    (ha : List.Chain' (fun a b : Pivot => a.pivot_type ≠ b.pivot_type) zig)
    (startingPdi fuel fuel' : Nat) (hf : fuel ≤ fuel')
    (final final' : HOState)
    (hrun : calcHOZigzag pairDf zig startingPdi fuel' = some final)
    (hrun' : calcHOZigzag pairDf zig startingPdi fuel = some final') :
    SegMono final.segments ∧ ∃ tail, final.segments = final'.segments ++ tail := by
  simp only [calcHOZigzag] at hrun hrun'
  cases hinit : initHOState zig startingPdi with
  | none =>
    rw [hinit] at hrun
    exact absurd hrun (by simp)
  | some st0 =>
    rw [hinit] at hrun hrun'
    simp only [Option.map_some'] at hrun hrun'
    injection hrun with hrun
    injection hrun' with hrun'
    subst hrun
    subst hrun'
    constructor
    · exact hoLoop_inv pairDf zig hwf hchain ha fuel' st0
        (initHOState_inv zig startingPdi st0 hinit)
    · exact hoLoop_prefix pairDf zig fuel fuel' hf st0

theorem claim_C7_witness :
    SegMono (⟨[0, 4, 6], [4, 4],
      [⟨0, 6, 0, 4, some 22, 9, 6, 3, true, FormationMethod.bos⟩], [3, 3], [],
      6, none, some 22, 9⟩ : HOState).segments ∧
    ∃ tail, (⟨[0, 4, 6], [4, 4],
      [⟨0, 6, 0, 4, some 22, 9, 6, 3, true, FormationMethod.bos⟩], [3, 3], [],
      6, none, some 22, 9⟩ : HOState).segments =
      (⟨[0, 4], [4], [], [3], [], 0, some 4, some 22, 9⟩ : HOState).segments ++ tail :=
  claim_C7 pairDfW4 zigW4 (by decide) (by simp [zigW4]) (by simp [zigW4])
    0 1 2 (by omega) _ _ rfl rfl
